import Mathlib

/-!
Verification of the RDIP backend core (job store, rate limiter, dual cache,
LLM orchestrator with its JSON response-recovery cascade) against its
natural-language specification.  The Python sources under `rdip_backend/`
are shallowly embedded below: pure functions become Lean functions over
`List Char` / `Int` / `Nat`, stateful classes become explicit state-passing
functions, `try/except` blocks become `Option`/`Except` or explicit
failure-injection flags, and `time.time()` becomes an explicit `now : Int`
argument.  Library calls (`hashlib.sha256`, `json.loads`, `json.dumps`,
the specific `re` patterns used) are modelled executably, faithful to the
behaviour the sources exercise (ASCII model of `str.strip`/`str.lower`,
JSON numbers kept as decimal literals, no `NaN`/`Infinity` extensions).
-/

set_option maxRecDepth 10000

namespace RDIP

/-! ## Python string primitives (ASCII model), on `List Char` -/

/-- Whitespace set of Python `str.strip()` / regex `\s` (ASCII part). -/
def pyIsSpace (c : Char) : Bool :=
  c == ' ' || c == '\t' || c == '\n' || c == '\r' || c == '\x0b' || c == '\x0c'

/-- Model of `s.lstrip()` (char-predicate form). -/
def pyDropWhile (p : Char → Bool) (l : List Char) : List Char :=
  l.dropWhile p

/-- Drop matching characters from the right, as Python `s.rstrip(chars)`. -/
def pyRStripWith (p : Char → Bool) (l : List Char) : List Char :=
  (l.reverse.dropWhile p).reverse

/-- Model of Python `s.strip()` (default whitespace). -/
def pyStrip (l : List Char) : List Char :=
  pyRStripWith pyIsSpace (l.dropWhile pyIsSpace)

/-- ASCII lower-casing of one character, model of `str.lower` on the
characters the claims exercise. -/
def asciiLower (c : Char) : Char :=
  if 65 ≤ c.toNat && c.toNat ≤ 90 then Char.ofNat (c.toNat + 32) else c

/-- Model of Python `s.lower()` (ASCII). -/
def pyLower (l : List Char) : List Char :=
  l.map asciiLower

/-- Embedding of the URL normalization inside `DualCacheManager._hash_url`:
`url.strip().lower().rstrip("/")`. -/
def normalizeUrl (url : List Char) : List Char :=
  pyRStripWith (· == '/') (pyLower (pyStrip url))

/-- UTF-8 encoding of one character, model of `str.encode()`. -/
def utf8Char (c : Char) : List Nat :=
  let n := c.toNat
  if n < 128 then [n]
  else if n < 2048 then [192 ||| (n >>> 6), 128 ||| (n &&& 63)]
  else if n < 65536 then
    [224 ||| (n >>> 12), 128 ||| ((n >>> 6) &&& 63), 128 ||| (n &&& 63)]
  else
    [240 ||| (n >>> 18), 128 ||| ((n >>> 12) &&& 63),
     128 ||| ((n >>> 6) &&& 63), 128 ||| (n &&& 63)]

/-- UTF-8 encoding of a character list. -/
def utf8 (l : List Char) : List Nat :=
  l.foldr (fun c acc => utf8Char c ++ acc) []

/-! ## SHA-256 over byte lists (model of `hashlib.sha256`)

Machine words are `Nat` reduced mod `2^32` wherever overflow matters. -/

/-- The 32-bit modulus. -/
def M32 : Nat := 4294967296

/-- Right rotation of a 32-bit word. -/
def rotr (n x : Nat) : Nat := ((x >>> n) ||| (x <<< (32 - n))) % M32

/-- SHA-256 round constants (fractional parts of cube roots of the first
64 primes, FIPS 180-4). -/
def shaK : List Nat :=
  [1116352408, 1899447441, 3049323471, 3921009573, 961987163, 1508970993,
   2453635748, 2870763221, 3624381080, 310598401, 607225278, 1426881987,
   1925078388, 2162078206, 2614888103, 3248222580, 3835390401, 4022224774,
   264347078, 604807628, 770255983, 1249150122, 1555081692, 1996064986,
   2554220882, 2821834349, 2952996808, 3210313671, 3336571891, 3584528711,
   113926993, 338241895, 666307205, 773529912, 1294757372, 1396182291,
   1695183700, 1986661051, 2177026350, 2456956037, 2730485921, 2820302411,
   3259730800, 3345764771, 3516065817, 3600352804, 4094571909, 275423344,
   430227734, 506948616, 659060556, 883997877, 958139571, 1322822218,
   1537002063, 1747873779, 1955562222, 2024104815, 2227730452, 2361852424,
   2428436474, 2756734187, 3204031479, 3329325298]

/-- The eight working variables of the SHA-256 state. -/
structure Hash8 where
  a : Nat
  b : Nat
  c : Nat
  d : Nat
  e : Nat
  f : Nat
  g : Nat
  h : Nat
deriving Repr, DecidableEq

/-- Initial SHA-256 state (fractional parts of square roots of the first
8 primes). -/
def shaH0 : Hash8 :=
  ⟨1779033703, 3144134277, 1013904242, 2773480762,
   1359893119, 2600822924, 528734635, 1541459225⟩

/-- Message-schedule extension: append `k` further words. -/
def wext (w : List Nat) : Nat → List Nat
  | 0 => w
  | k + 1 =>
    let i := w.length
    let w15 := w.getD (i - 15) 0
    let w2 := w.getD (i - 2) 0
    let s0 := (rotr 7 w15) ^^^ (rotr 18 w15) ^^^ (w15 >>> 3)
    let s1 := (rotr 17 w2) ^^^ (rotr 19 w2) ^^^ (w2 >>> 10)
    let next := (w.getD (i - 16) 0 + s0 + w.getD (i - 7) 0 + s1) % M32
    wext (w ++ [next]) k

/-- One SHA-256 round. -/
def shaRound (st : Hash8) (kw : Nat × Nat) : Hash8 :=
  let s1 := (rotr 6 st.e) ^^^ (rotr 11 st.e) ^^^ (rotr 25 st.e)
  let ch := (st.e &&& st.f) ^^^ ((M32 - 1 - st.e) &&& st.g)
  let t1 := (st.h + s1 + ch + kw.1 + kw.2) % M32
  let s0 := (rotr 2 st.a) ^^^ (rotr 13 st.a) ^^^ (rotr 22 st.a)
  let mj := (st.a &&& st.b) ^^^ (st.a &&& st.c) ^^^ (st.b &&& st.c)
  let t2 := (s0 + mj) % M32
  ⟨(t1 + t2) % M32, st.a, st.b, st.c, (st.d + t1) % M32, st.e, st.f, st.g⟩

/-- Compress one 16-word block into the running state. -/
def compressBlock (hs : Hash8) (block : List Nat) : Hash8 :=
  let w := wext block 48
  let st := (shaK.zip w).foldl shaRound hs
  ⟨(hs.a + st.a) % M32, (hs.b + st.b) % M32, (hs.c + st.c) % M32,
   (hs.d + st.d) % M32, (hs.e + st.e) % M32, (hs.f + st.f) % M32,
   (hs.g + st.g) % M32, (hs.h + st.h) % M32⟩

/-- Big-endian 8-byte encoding of the bit length. -/
def be8 (n : Nat) : List Nat :=
  [(n >>> 56) &&& 255, (n >>> 48) &&& 255, (n >>> 40) &&& 255,
   (n >>> 32) &&& 255, (n >>> 24) &&& 255, (n >>> 16) &&& 255,
   (n >>> 8) &&& 255, n &&& 255]

/-- SHA-256 padding of a byte message. -/
def shaPad (msg : List Nat) : List Nat :=
  let k := (119 - msg.length % 64) % 64
  msg ++ 128 :: List.replicate k 0 ++ be8 (8 * msg.length)

/-- Pack bytes into big-endian 32-bit words (4 bytes each). -/
def toWords : List Nat → List Nat
  | a :: b :: c :: d :: r => ((a <<< 24) + (b <<< 16) + (c <<< 8) + d) :: toWords r
  | _ => []

/-- Split a word list into 16-word blocks (fuel-based structural recursion,
fuel bounds the number of blocks). -/
def toBlocksAux : Nat → List Nat → List (List Nat)
  | 0, _ => []
  | _, [] => []
  | fuel + 1, l => l.take 16 :: toBlocksAux fuel (l.drop 16)

/-- Split a word list into 16-word blocks. -/
def toBlocks (l : List Nat) : List (List Nat) :=
  toBlocksAux l.length l

/-- SHA-256 of a byte message, as eight 32-bit words. -/
def sha256 (msg : List Nat) : Hash8 :=
  (toBlocks (toWords (shaPad msg))).foldl compressBlock shaH0

/-- One lowercase hex digit. -/
def hexDigit (d : Nat) : Char :=
  "0123456789abcdef".data.getD d '0'

/-- Lowercase hex of one 32-bit word (8 digits). -/
def hexWord (n : Nat) : List Char :=
  (List.range 8).map (fun k => hexDigit ((n >>> (4 * (7 - k))) &&& 15))

/-- Model of `hashlib.sha256(..).hexdigest()`. -/
def sha256Hex (msg : List Nat) : List Char :=
  hexWord (sha256 msg).a ++ hexWord (sha256 msg).b ++ hexWord (sha256 msg).c ++
  hexWord (sha256 msg).d ++ hexWord (sha256 msg).e ++ hexWord (sha256 msg).f ++
  hexWord (sha256 msg).g ++ hexWord (sha256 msg).h

/-- Embedding of `DualCacheManager._hash_url`: normalize, SHA-256, first 16
hex digits. -/
def hashUrl (url : List Char) : List Char :=
  (sha256Hex (utf8 (normalizeUrl url))).take 16

/-! ## JSON values

Model of the Python JSON values the backend passes around (`Dict[str, Any]`
from `json.loads`).  Numbers are kept as decimal literals (sign, integer
digits, optional fraction digits, optional exponent), which is faithful for
the structural comparisons the claims make; objects are insertion-ordered
association lists, as CPython dicts are. -/

inductive Json where
  | null
  | jbool (b : Bool)
  | num (neg : Bool) (ip : List Nat) (frac : Option (List Nat))
      (ex : Option (Bool × List Nat))
  | str (s : List Char)
  | arr (xs : List Json)
  | obj (kvs : List (List Char × Json))

/-- Decimal digits of a natural number, most significant first
(fuel-based so it kernel-reduces). -/
def natDigits : Nat → Nat → List Nat
  | 0, _ => []
  | f + 1, n => if n < 10 then [n] else natDigits f (n / 10) ++ [n % 10]

/-- Integer JSON number. -/
def Json.int (n : Nat) : Json := .num false (natDigits (n + 1) n) none none

/-! ## Model of `json.loads`

A strict recursive-descent parser mirroring Python's `json.loads` on the
JSON subset the backend exercises: no `NaN`/`Infinity` extensions, and a
lone UTF-16 surrogate escape is rejected (Lean `Char` cannot hold one;
valid surrogate pairs are combined, as CPython does).  Structural fuel
makes every function kernel-reducible. -/

/-- JSON whitespace (the only characters `json.loads` skips). -/
def jsonWsChar (c : Char) : Bool :=
  c == ' ' || c == '\t' || c == '\n' || c == '\r'

/-- Skip JSON whitespace. -/
def skipWs (l : List Char) : List Char := l.dropWhile jsonWsChar

/-- Value of one hex digit, if any. -/
def hexVal (c : Char) : Option Nat :=
  if 48 ≤ c.toNat && c.toNat ≤ 57 then some (c.toNat - 48)
  else if 97 ≤ c.toNat && c.toNat ≤ 102 then some (c.toNat - 87)
  else if 65 ≤ c.toNat && c.toNat ≤ 70 then some (c.toNat - 55)
  else none

/-- Decode a JSON string body after the opening quote: content plus the rest
after the closing quote.  Mirrors strict-mode `json.loads` (raw control
characters are rejected) except that UTF-16 surrogate escapes are rejected
outright — a Lean `Char` cannot hold a lone surrogate and nothing the
backend exchanges uses surrogate pairs. -/
def parseStrBody : List Char → Option (List Char × List Char)
  | [] => none
  | '"' :: r => some ([], r)
  | '\\' :: 'u' :: a :: b :: c :: d :: r =>
    match hexVal a, hexVal b, hexVal c, hexVal d with
    | some ha, some hb, some hc, some hd =>
      let n := ((ha * 16 + hb) * 16 + hc) * 16 + hd
      if 55296 ≤ n && n ≤ 57343 then none
      else (parseStrBody r).map (fun p => (Char.ofNat n :: p.1, p.2))
    | _, _, _, _ => none
  | '\\' :: e :: r =>
    let esc : Option Char :=
      if e == '"' then some '"'
      else if e == '\\' then some '\\'
      else if e == '/' then some '/'
      else if e == 'b' then some '\x08'
      else if e == 'f' then some '\x0c'
      else if e == 'n' then some '\n'
      else if e == 'r' then some '\r'
      else if e == 't' then some '\t'
      else none
    match esc with
    | some c => (parseStrBody r).map (fun p => (c :: p.1, p.2))
    | none => none
  | c :: r =>
    if c.toNat < 32 then none
    else (parseStrBody r).map (fun p => (c :: p.1, p.2))

/-- Decimal digit test. -/
def isDig (c : Char) : Bool := 48 ≤ c.toNat && c.toNat ≤ 57

/-- Read a maximal run of decimal digits as digit values. -/
def parseDigits : List Char → List Nat × List Char
  | [] => ([], [])
  | c :: r =>
    if isDig c then
      let p := parseDigits r
      ((c.toNat - 48) :: p.1, p.2)
    else ([], c :: r)

/-- Exponent tail after `e`/`E`; `orig` restores the input when the
exponent is incomplete (the regex then simply does not include it). -/
def numExpTail (rr orig : List Char) : Option (Bool × List Nat) × List Char :=
  match rr with
  | '+' :: d :: rs =>
    if isDig d then
      let p := parseDigits rs
      (some (false, (d.toNat - 48) :: p.1), p.2)
    else (none, orig)
  | '-' :: d :: rs =>
    if isDig d then
      let p := parseDigits rs
      (some (true, (d.toNat - 48) :: p.1), p.2)
    else (none, orig)
  | d :: rs =>
    if isDig d then
      let p := parseDigits rs
      (some (false, (d.toNat - 48) :: p.1), p.2)
    else (none, orig)
  | [] => (none, orig)

/-- Optional fraction (`(\.\d+)?`): consumed only when complete. -/
def fracScan (r : List Char) : Option (List Nat) × List Char :=
  match r with
  | '.' :: d :: rr =>
    if isDig d then
      let p := parseDigits rr
      (some ((d.toNat - 48) :: p.1), p.2)
    else (none, '.' :: d :: rr)
  | rr => (none, rr)

/-- Optional exponent (`([eE][-+]?\d+)?`): consumed only when complete. -/
def exScan (r : List Char) : Option (Bool × List Nat) × List Char :=
  match r with
  | 'e' :: rr => numExpTail rr ('e' :: rr)
  | 'E' :: rr => numExpTail rr ('E' :: rr)
  | rr => (none, rr)

/-- Fraction and exponent after the integer digits. -/
def numTail (neg : Bool) (ip : List Nat) (r : List Char) : Json × List Char :=
  let f := fracScan r
  let e := exScan f.2
  (.num neg ip f.1 e.1, e.2)

/-- Integer part after the optional sign: `0` alone or a nonzero digit
followed by more digits. -/
def parseNumIp (neg : Bool) (s1 : List Char) : Option (Json × List Char) :=
  match s1 with
  | '0' :: r1 => some (numTail neg [0] r1)
  | c :: r1 =>
    if isDig c && c != '0' then
      let p := parseDigits r1
      some (numTail neg ((c.toNat - 48) :: p.1) p.2)
    else none
  | [] => none

/-- Parse a JSON number per the `json` module's regex
`(-?(?:0|[1-9]\d*))(\.\d+)?([eE][-+]?\d+)?`: the fraction and exponent are
consumed only when complete, everything else is left for the caller (whose
strictness then rejects stray digits, as CPython does). -/
def parseNum (s : List Char) : Option (Json × List Char) :=
  match s with
  | '-' :: r => parseNumIp true r
  | r => parseNumIp false r

/-- Insert a key into an object under CPython dict semantics: an existing
key keeps its position and gets the new value, a new key is appended. -/
def upsertKV (kvs : List (List Char × Json)) (k : List Char) (v : Json) :
    List (List Char × Json) :=
  match kvs with
  | [] => [(k, v)]
  | (k', v') :: r => if k' == k then (k', v) :: r else (k', v') :: upsertKV r k v

mutual

/-- Parse one JSON value (fuel-indexed recursive descent). -/
def pV : Nat → List Char → Option (Json × List Char)
  | 0, _ => none
  | f + 1, s =>
    match skipWs s with
    | 'n' :: 'u' :: 'l' :: 'l' :: r => some (.null, r)
    | 't' :: 'r' :: 'u' :: 'e' :: r => some (.jbool true, r)
    | 'f' :: 'a' :: 'l' :: 's' :: 'e' :: r => some (.jbool false, r)
    | '"' :: r => (parseStrBody r).map (fun p => (.str p.1, p.2))
    | '[' :: r =>
      (match skipWs r with
       | ']' :: r' => some (.arr [], r')
       | r' => pElems f r' [])
    | '{' :: r =>
      (match skipWs r with
       | '}' :: r' => some (.obj [], r')
       | r' => pPairs f r' [])
    | s' => parseNum s'
termination_by structural f => f

/-- Parse the elements of a non-empty JSON array. -/
def pElems : Nat → List Char → List Json → Option (Json × List Char)
  | 0, _, _ => none
  | f + 1, s, acc =>
    match pV f s with
    | none => none
    | some (v, r) =>
      match skipWs r with
      | ',' :: r' => pElems f r' (v :: acc)
      | ']' :: r' => some (.arr (v :: acc).reverse, r')
      | _ => none
termination_by structural f => f

/-- Parse the members of a non-empty JSON object. -/
def pPairs : Nat → List Char → List (List Char × Json) →
    Option (Json × List Char)
  | 0, _, _ => none
  | f + 1, s, acc =>
    match skipWs s with
    | '"' :: r =>
      match parseStrBody r with
      | none => none
      | some (k, r1) =>
        match skipWs r1 with
        | ':' :: r2 =>
          match pV f r2 with
          | none => none
          | some (v, r3) =>
            match skipWs r3 with
            | ',' :: r4 => pPairs f r4 (upsertKV acc k v)
            | '}' :: r4 => some (.obj (upsertKV acc k v), r4)
            | _ => none
        | _ => none
    | _ => none
termination_by structural f => f

end

/-- Model of `json.loads`: parse one value and require only whitespace
afterwards (Python raises `Extra data` otherwise). -/
def jsonLoads (s : List Char) : Option Json :=
  match pV (2 * s.length + 2) s with
  | some (v, r) => if (skipWs r).isEmpty then some v else none
  | none => none

/-! ## Model of `json.dumps`

Default separators (`", "` and `": "`), `ensure_ascii=False` as used by
`DualCacheManager.save`: characters other than the quote, the backslash
and control characters are emitted raw. -/

/-- Decimal digit character. -/
def digitChar (d : Nat) : Char := hexDigit d

/-- Escape one character as `json.dumps(..., ensure_ascii=False)` does. -/
def escChar (c : Char) : List Char :=
  if c == '"' then ['\\', '"']
  else if c == '\\' then ['\\', '\\']
  else if c.toNat < 32 then
    if c == '\x08' then ['\\', 'b']
    else if c == '\t' then ['\\', 't']
    else if c == '\n' then ['\\', 'n']
    else if c == '\x0c' then ['\\', 'f']
    else if c == '\r' then ['\\', 'r']
    else ['\\', 'u', '0', '0', hexDigit (c.toNat >>> 4), hexDigit (c.toNat &&& 15)]
  else [c]

/-- Print a JSON string with quotes. -/
def printStr (s : List Char) : List Char :=
  '"' :: s.foldr (fun c acc => escChar c ++ acc) ['"']

/-- Print a JSON number from its decimal-literal parts. -/
def printNum (neg : Bool) (ip : List Nat) (frac : Option (List Nat))
    (ex : Option (Bool × List Nat)) : List Char :=
  (if neg then ['-'] else []) ++ ip.map digitChar ++
  (match frac with
   | some ds => '.' :: ds.map digitChar
   | none => []) ++
  (match ex with
   | some (b, ds) => 'e' :: (if b then '-' else '+') :: ds.map digitChar
   | none => [])

mutual

/-- Print one JSON value, model of `json.dumps` (default separators,
`ensure_ascii=False`). -/
def printVal : Json → List Char
  | .null => "null".data
  | .jbool true => "true".data
  | .jbool false => "false".data
  | .num neg ip frac ex => printNum neg ip frac ex
  | .str s => printStr s
  | .arr xs => '[' :: printElems xs ++ [']']
  | .obj kvs => '{' :: printMembers kvs ++ ['}']
termination_by structural v => v

/-- Print array elements, comma-space separated. -/
def printElems : List Json → List Char
  | [] => []
  | [x] => printVal x
  | x :: y :: xs => printVal x ++ ',' :: ' ' :: printElems (y :: xs)
termination_by structural l => l

/-- Print object members, comma-space separated, `": "` after each key. -/
def printMembers : List (List Char × Json) → List Char
  | [] => []
  | [(k, v)] => printStr k ++ ':' :: ' ' :: printVal v
  | (k, v) :: m :: ms =>
    printStr k ++ ':' :: ' ' :: printVal v ++ ',' :: ' ' :: printMembers (m :: ms)
termination_by structural l => l

end

/-- Digit-list well-formedness: nonempty, all below 10. -/
def digitsOk (ds : List Nat) : Bool :=
  !ds.isEmpty && ds.all (· < 10)

/-- Distinctness of object keys. -/
def keysUnique : List (List Char × Json) → Bool
  | [] => true
  | (k, _) :: r => !(r.any (fun p => p.1 == k)) && keysUnique r

mutual

/-- Well-formedness of a JSON value for the print-parse roundtrip: integer
digit lists are canonical (no leading zero), fraction/exponent digit lists
nonempty, object keys distinct.  Every value produced by `json.loads` or
`dict`-building Python code satisfies this. -/
def wfJson : Json → Bool
  | .null => true
  | .jbool _ => true
  | .num _ ip frac ex =>
    digitsOk ip && (ip.length == 1 || ip.headD 0 != 0) &&
    (match frac with | some ds => digitsOk ds | none => true) &&
    (match ex with | some (_, ds) => digitsOk ds | none => true)
  | .str _ => true
  | .arr xs => wfList xs
  | .obj kvs => wfPairs kvs && keysUnique kvs
termination_by structural v => v

/-- All elements well-formed. -/
def wfList : List Json → Bool
  | [] => true
  | x :: xs => wfJson x && wfList xs
termination_by structural l => l

/-- All member values well-formed. -/
def wfPairs : List (List Char × Json) → Bool
  | [] => true
  | (_, v) :: r => wfJson v && wfPairs r
termination_by structural l => l

end

/-- Field lookup in a JSON object, for stating claims about results. -/
def jsonField (v : Json) (k : List Char) : Option Json :=
  match v with
  | .obj kvs => (kvs.find? (fun p => p.1 == k)).map (·.2)
  | _ => none

/-! ## The `re` patterns of `AIOrchestrator._parse_json_response`

Each pattern the source uses is modelled by a dedicated deterministic
scanner.  Backtracking plays no role for these patterns (each bounded
repetition is over a character class whose follow set is disjoint), so the
scanners below compute exactly the leftmost match Python's `re.search`
finds. -/

/-- Test for a closing fence after optional `\s*`, the `\s*three-backticks`
tail of the code-block pattern. -/
def fenceFollows (l : List Char) : Bool :=
  match l.dropWhile pyIsSpace with
  | '`' :: '`' :: '`' :: _ => true
  | _ => false

/-- Lazy group body of `(\{.*?\})\s*three-backticks`: content up to the first
closing brace that is followed by the closing fence. -/
def lazyClose : List Char → Option (List Char)
  | [] => none
  | c :: r =>
    if c == '}' && fenceFollows r then some [c]
    else (lazyClose r).map (c :: ·)

/-- Try the code-block pattern anchored at this position. -/
def tryFence (s : List Char) : Option (List Char) :=
  match s with
  | '`' :: '`' :: '`' :: t =>
    let t1 := match t with
      | 'j' :: 's' :: 'o' :: 'n' :: rest => rest
      | rest => rest
    (match t1.dropWhile pyIsSpace with
     | '{' :: u => (lazyClose u).map ('{' :: ·)
     | _ => none)
  | _ => none

/-- Model of `re.search` with the fenced-code-block pattern of
`_parse_json_response` (group 1 of
a three-backtick fence, optional `json` tag, `\s*`, `(\{.*?\})`, `\s*`,
closing fence), scanning left to right. -/
def extractCodeBlock : List Char → Option (List Char)
  | [] => none
  | c :: r =>
    match tryFence (c :: r) with
    | some g => some g
    | none => extractCodeBlock r

mutual

/-- Walk the body of the one-level brace pattern
`\{[^{}]*(?:\{[^{}]*\}[^{}]*)*\}` at outer depth (after the opening
brace). -/
def bmGo : List Char → Option (List Char)
  | [] => none
  | c :: r =>
    if c == '}' then some [c]
    else if c == '{' then (bmInner r).map (c :: ·)
    else (bmGo r).map (c :: ·)
termination_by structural l => l

/-- Walk inside a nested brace pair of the same pattern: a further opening
brace kills the match. -/
def bmInner : List Char → Option (List Char)
  | [] => none
  | c :: r =>
    if c == '}' then (bmGo r).map (c :: ·)
    else if c == '{' then none
    else (bmInner r).map (c :: ·)
termination_by structural l => l

end

/-- Model of `re.search` with the one-level brace pattern of
`_parse_json_response`, scanning left to right. -/
def braceMatch : List Char → Option (List Char)
  | [] => none
  | c :: r =>
    if c == '{' then
      match bmGo r with
      | some g => some ('{' :: g)
      | none => braceMatch r
    else braceMatch r

/-- Model of `re.sub(r"[\x00-\x1F\x7F]", "", text)`: drop ASCII control
characters. -/
def removeCtl (l : List Char) : List Char :=
  l.filter (fun c => !(c.toNat < 32 || c.toNat == 127))

/-- Model of `re.search(r"\{.*\}", text, re.DOTALL)`: from the first opening
brace to the last closing brace after it. -/
def greedyBrace (s : List Char) : Option (List Char) :=
  match s.dropWhile (fun c => !(c == '{')) with
  | [] => none
  | t =>
    let r := t.reverse.dropWhile (fun c => !(c == '}'))
    if r.isEmpty then none else some r.reverse

/-- Closing bracket or brace, the group of the trailing-comma pattern. -/
def closerChar (c : Char) : Bool := c == '}' || c == ']'

/-- Single left-to-right pass of `re.sub(r",\s*([}\]])", r"\1", text)`
(`_fix_json_issues`): `pending` holds a read comma plus following
whitespace; a closer then replaces the whole pending match by itself. -/
def fjiGo (pending : List Char) : List Char → List Char
  | [] => pending
  | c :: r =>
    match pending with
    | [] => if c == ',' then fjiGo [c] r else c :: fjiGo [] r
    | _ =>
      if closerChar c then c :: fjiGo [] r
      else if pyIsSpace c then fjiGo (pending ++ [c]) r
      else if c == ',' then pending ++ fjiGo [c] r
      else pending ++ c :: fjiGo [] r

/-- Embedding of `AIOrchestrator._fix_json_issues`. -/
def fixJsonIssues (s : List Char) : List Char := fjiGo [] s

/-! ## The response-recovery cascade -/

/-- The neutral sentiment object of
`AIOrchestrator._create_fallback_response`. -/
def neutralSentiment : Json :=
  .obj [("label".data, .str "Neutro".data),
        ("score".data, .num false [0] (some [5]) none),
        ("details".data, .str "Error de parseo: no se pudo extraer JSON válido".data)]

/-- Embedding of `AIOrchestrator._create_fallback_response`. -/
def fallbackResponse (raw : List Char) : Json :=
  let sp := if raw.isEmpty then "Error al procesar respuesta del LLM".data
            else raw.take 400
  let sc := if 400 < raw.length then (raw.drop 400).take 600 else []
  .obj [("summary_post".data, .str sp),
        ("summary_comments".data, .str sc),
        ("sentiment_post".data, neutralSentiment),
        ("sentiment_comments".data, neutralSentiment),
        ("consensus".data,
         .str "No disponible debido a error de procesamiento".data),
        ("key_controversies".data, .arr []),
        ("useful_links".data, .arr [])]

/-- Embedding of `AIOrchestrator._parse_json_response`: direct parse, fenced
code block, one-level brace region, control-character strip, greedy brace
region with trailing-comma repair, then the synthesized fallback. -/
def parseJsonResponse (text : List Char) : Json :=
  match jsonLoads text with
  | some v => v
  | none =>
    match (extractCodeBlock text).bind jsonLoads with
    | some v => v
    | none =>
      match (braceMatch text).bind jsonLoads with
      | some v => v
      | none =>
        match jsonLoads (pyStrip (removeCtl text)) with
        | some v => v
        | none =>
          match ((greedyBrace text).map fixJsonIssues).bind jsonLoads with
          | some v => v
          | none => fallbackResponse text

/-- Wrap a response in a fenced code block, the shape the fallback claims
quantify over. -/
def fenceWrap (s : List Char) : List Char :=
  "```json".data ++ '\n' :: s ++ '\n' :: "```".data

/-- Insert one trailing comma before the final closing brace. -/
def insertComma (s : List Char) : List Char :=
  s.dropLast ++ [',', '}']

/-! ## RateLimitManager (`services/rate_limiter.py`)

Timestamps are `Int` seconds (model of `time.time()` floats); each history
deque is a list, oldest first.  The `asyncio.Lock` serializes every
operation, so the methods are plain state transformers. -/

/-- The rolling window width, `self._window_seconds = 60.0`. -/
def windowSeconds : Int := 60

/-- Embedding of `RateLimitManager._clean_history`: pop entries strictly
older than `now - window` from the front. -/
def cleanHistory (now : Int) (h : List Int) : List Int :=
  h.dropWhile (fun t => decide (t < now - windowSeconds))

/-- Append to a `deque(maxlen=m)`: a full deque drops its oldest entry. -/
def dequeAppend (m : Nat) (h : List Int) (t : Int) : List Int :=
  if m ≤ h.length then (h.drop (h.length + 1 - m)) ++ [t] else h ++ [t]

/-- State of `RateLimitManager`: per-provider timestamp histories
(`deque(maxlen=500)` for Groq, `deque(maxlen=100)` for Gemini) and
configured requests-per-minute limits. -/
structure RateState where
  groqHist : List Int
  geminiHist : List Int
  groqLimit : Nat
  geminiLimit : Nat

/-- Embedding of `can_use_groq`: clean, then compare against the limit. -/
def canUseGroq (st : RateState) (now : Int) : Bool × RateState :=
  let h := cleanHistory now st.groqHist
  (decide (h.length < st.groqLimit), { st with groqHist := h })

/-- Embedding of `can_use_gemini`. -/
def canUseGemini (st : RateState) (now : Int) : Bool × RateState :=
  let h := cleanHistory now st.geminiHist
  (decide (h.length < st.geminiLimit), { st with geminiHist := h })

/-- Embedding of `record_groq_usage`: append the current time (no
cleaning). -/
def recordGroqUsage (st : RateState) (now : Int) : RateState :=
  { st with groqHist := dequeAppend 500 st.groqHist now }

/-- Embedding of `record_gemini_usage`. -/
def recordGeminiUsage (st : RateState) (now : Int) : RateState :=
  { st with geminiHist := dequeAppend 100 st.geminiHist now }

/-- Snapshot returned by `get_stats` (availability may go negative in
Python; it is `Int` here). -/
structure RateStats where
  groqUsed : Nat
  groqLimit : Nat
  groqAvailable : Int
  geminiUsed : Nat
  geminiLimit : Nat
  geminiAvailable : Int
deriving DecidableEq

/-- Embedding of `get_stats`: clean both histories, then report counts. -/
def getStats (st : RateState) (now : Int) : RateStats × RateState :=
  let hg := cleanHistory now st.groqHist
  let hm := cleanHistory now st.geminiHist
  (⟨hg.length, st.groqLimit, (st.groqLimit : Int) - hg.length,
    hm.length, st.geminiLimit, (st.geminiLimit : Int) - hm.length⟩,
   { st with groqHist := hg, geminiHist := hm })

/-! ## JobStore (`services/job_store.py`) -/

/-- Pydantic `JobStatus` record (the `job_id`/`created_at` fields of the
model are irrelevant to the claims' invariants and the store keys records
by id, so the record keeps id, status, progress, result, error). -/
inductive JStatus where
  | queued
  | processing
  | completed
  | failed
deriving DecidableEq

/-- One job record. -/
structure JobRec where
  jobId : List Char
  status : JStatus
  progress : Nat
  result : Option Json
  error : Option (List Char)

/-- Assoc-list upsert (CPython dict assignment). -/
def aUpsert {α : Type} (l : List (List Char × α)) (k : List Char) (v : α) :
    List (List Char × α) :=
  match l with
  | [] => [(k, v)]
  | (k', v') :: r => if k' == k then (k', v) :: r else (k', v') :: aUpsert r k v

/-- Assoc-list lookup (CPython `dict.get`). -/
def aGet {α : Type} (l : List (List Char × α)) (k : List Char) : Option α :=
  (l.find? (fun p => p.1 == k)).map (·.2)

/-- State of `JobStore`: TTL, the `_jobs` dict and the `_created_at`
dict. -/
structure JStore where
  ttl : Int
  jobs : List (List Char × JobRec)
  createdAt : List (List Char × Int)

/-- Fresh store. -/
def jsEmpty (ttl : Int) : JStore := ⟨ttl, [], []⟩

/-- Embedding of `JobStore.cleanup`: drop every record whose creation time
is strictly older than `now - ttl`. -/
def jsCleanup (now : Int) (s : JStore) : JStore × Nat :=
  let expired := (s.createdAt.filter (fun p => decide (p.2 < now - s.ttl))).map (·.1)
  (⟨s.ttl,
    s.jobs.filter (fun p => !(expired.any (· == p.1))),
    s.createdAt.filter (fun p => !(expired.any (· == p.1)))⟩,
   expired.length)

/-- Embedding of `JobStore.add`: cleanup, then insert record and creation
time. -/
def jsAdd (now : Int) (id : List Char) (rec : JobRec) (s : JStore) : JStore :=
  let s1 := (jsCleanup now s).1
  ⟨s1.ttl, aUpsert s1.jobs id rec, aUpsert s1.createdAt id now⟩

/-- Embedding of `JobStore.get`: a plain dict lookup, with no cleanup and
no reference to the current time. -/
def jsGet (s : JStore) (id : List Char) : Option JobRec :=
  aGet s.jobs id

/-- Embedding of `JobStore.update`: replace only if present, never
insert. -/
def jsUpdate (id : List Char) (rec : JobRec) (s : JStore) : JStore × Bool :=
  if (s.jobs.any (fun p => p.1 == id)) then
    (⟨s.ttl, aUpsert s.jobs id rec, s.createdAt⟩, true)
  else (s, false)

/-- Embedding of `JobStore.remove`. -/
def jsRemove (id : List Char) (s : JStore) : JStore × Bool :=
  if (s.jobs.any (fun p => p.1 == id)) then
    (⟨s.ttl, s.jobs.filter (fun p => !(p.1 == id)),
      s.createdAt.filter (fun p => !(p.1 == id))⟩, true)
  else (s, false)

/-- Embedding of `JobStore.stats`: cleanup, then count by status. -/
def jsStats (now : Int) (s : JStore) : JStore × (Nat × Nat × Nat × Nat × Nat) :=
  let s1 := (jsCleanup now s).1
  let count := fun (st : JStatus) =>
    (s1.jobs.filter (fun p => p.2.status = st)).length
  (s1, (count .queued, count .processing, count .completed, count .failed,
        s1.jobs.length))

/-- Embedding of `JobStore.clear`. -/
def jsClear (s : JStore) : JStore × Nat :=
  (⟨s.ttl, [], []⟩, s.jobs.length)

/-! ## DualCacheManager (`services/cache_manager.py`)

The hot tier is the `InMemoryCache` dict `key → (timestamp, serialized)`;
the cold tier is the DuckDB `analyses` table keyed by `url_hash`.  Each
`try/except` block in the source is modelled by a best-effort flag in
`CacheEnv`: a `false` flag means that block raised and was caught. -/

/-- One row of the cold-tier `analyses` table. -/
structure ColdRow where
  url : List Char
  payload : List Char
  createdAt : Int
  updatedAt : Int
  accessCount : Nat

/-- Cache state: hot-tier TTL, hot dict, cold table. -/
structure CacheState where
  ttl : Int
  hot : List (List Char × (Int × List Char))
  cold : List (List Char × ColdRow)

/-- Failure-injection flags, one per `try` block of `get`/`save` (a `false`
entry models that block raising an exception that the source catches). -/
structure CacheEnv where
  hotReadOk : Bool
  hotWriteOk : Bool
  coldReadOk : Bool
  coldUpdateOk : Bool
  coldWriteOk : Bool

/-- All operations succeed. -/
def envOk : CacheEnv := ⟨true, true, true, true, true⟩

/-- Embedding of `InMemoryCache.get`: value if present and fresh; an
expired entry is deleted. -/
def hotGet (now : Int) (ttl : Int) (hot : List (List Char × (Int × List Char)))
    (key : List Char) :
    Option (List Char) × List (List Char × (Int × List Char)) :=
  match aGet hot key with
  | some (ts, v) =>
    if now - ts < ttl then (some v, hot)
    else (none, hot.filter (fun p => !(p.1 == key)))
  | none => (none, hot)

/-- The cold-tier branch of `DualCacheManager.get` (the second `try`
block). -/
def cacheGetCold (env : CacheEnv) (now : Int) (st : CacheState)
    (key : List Char) (hot1 : List (List Char × (Int × List Char))) :
    Option Json × CacheState :=
  if env.coldReadOk then
    match aGet st.cold key with
    | some row =>
      match jsonLoads row.payload with
      | some analysis =>
        let hot2 := if env.hotWriteOk then aUpsert hot1 key (now, printVal analysis)
                    else hot1
        let cold2 := if env.coldUpdateOk then
            aUpsert st.cold key { row with accessCount := row.accessCount + 1,
                                           updatedAt := now }
          else st.cold
        (some analysis, { st with hot := hot2, cold := cold2 })
      | none => (none, { st with hot := hot1 })
    | none => (none, { st with hot := hot1 })
  else (none, { st with hot := hot1 })

/-- Embedding of `DualCacheManager.get`: hot tier first (a raised or empty
read falls through), then the cold tier with best-effort rehydration and
access-count update. -/
def cacheGet (env : CacheEnv) (now : Int) (st : CacheState) (url : List Char) :
    Option Json × CacheState :=
  let key := hashUrl url
  let (hotData, hot1) :=
    if env.hotReadOk then hotGet now st.ttl st.hot key else (none, st.hot)
  match hotData with
  | some d =>
    if d.isEmpty then cacheGetCold env now st key hot1
    else
      match jsonLoads d with
      | some v => (some v, { st with hot := hot1 })
      | none => cacheGetCold env now st key hot1
  | none => cacheGetCold env now st key hot1

/-- Embedding of `DualCacheManager.save`: hot `setex` and cold upsert (the
SQL `ON CONFLICT` bumps the access counter), each best-effort. -/
def cacheSave (env : CacheEnv) (now : Int) (st : CacheState) (url : List Char)
    (analysis : Json) : CacheState :=
  let key := hashUrl url
  let serialized := printVal analysis
  let hot' := if env.hotWriteOk then aUpsert st.hot key (now, serialized)
              else st.hot
  let cold' :=
    if env.coldWriteOk then
      match aGet st.cold key with
      | some row =>
        aUpsert st.cold key { row with payload := serialized, updatedAt := now,
                                       accessCount := row.accessCount + 1 }
      | none => aUpsert st.cold key ⟨url, serialized, now, now, 1⟩
    else st.cold
  { st with hot := hot', cold := cold' }

/-! ## AIOrchestrator.analyze (`services/ai_orchestrator.py`)

Provider calls are opaque async operations; an `analyze` run is determined
by the configuration, the two calls' outcomes (raw response text or raised
error) and the rate-limiter state.  The event trace records the order of
`record_*_usage` calls and call attempts. -/

/-- Observable orchestration events, in program order. -/
inductive OrchEvent where
  | recordGroq
  | callGroq
  | recordGemini
  | callGemini
deriving DecidableEq

/-- Static configuration of `AIOrchestrator` relevant to `analyze`:
client configuration flags and the Groq token ceiling versus the context's
Llama token count. -/
structure OrchCfg where
  groqConfigured : Bool
  geminiConfigured : Bool
  tokenCountLlama : Nat
  groqMaxTokens : Nat

/-- The `RuntimeError` message when no provider is available. -/
def noLLMMsg : List Char :=
  "No LLM available (rate limits exceeded or not configured)".data

/-- The Gemini phase of `analyze` (fallback block plus the final raise). -/
def analyzeGemini (cfg : OrchCfg) (geminiOutcome : Except (List Char) (List Char))
    (st : RateState) (now : Int) (evs : List OrchEvent) :
    Except (List Char) Json × RateState × List OrchEvent :=
  if cfg.geminiConfigured then
    let q := canUseGemini st now
    if q.1 then
      let st2 := recordGeminiUsage q.2 now
      match geminiOutcome with
      | .ok text =>
        (.ok (parseJsonResponse text), st2, evs ++ [.recordGemini, .callGemini])
      | .error e =>
        (.error ("All LLMs failed. Last error: ".data ++ e), st2,
         evs ++ [.recordGemini, .callGemini])
    else (.error noLLMMsg, q.2, evs)
  else (.error noLLMMsg, st, evs)

/-- Embedding of `AIOrchestrator.analyze`: admit-record-attempt on Groq
(configured, under the token ceiling, admitted), fall back to Gemini on any
Groq error, raise when neither provider is reachable.  The `and` chain
short-circuits, so `can_use_groq` (and its cleaning) runs only when the
client is configured and under the ceiling. -/
def analyze (cfg : OrchCfg)
    (groqOutcome geminiOutcome : Except (List Char) (List Char))
    (st : RateState) (now : Int) :
    Except (List Char) Json × RateState × List OrchEvent :=
  let p :=
    if cfg.groqConfigured && decide (cfg.tokenCountLlama < cfg.groqMaxTokens) then
      canUseGroq st now
    else (false, st)
  if p.1 then
    let st2 := recordGroqUsage p.2 now
    match groqOutcome with
    | .ok text =>
      (.ok (parseJsonResponse text), st2, [.recordGroq, .callGroq])
    | .error _ =>
      analyzeGemini cfg geminiOutcome st2 now [.recordGroq, .callGroq]
  else analyzeGemini cfg geminiOutcome p.2 now []

/-! ## The background pipeline (`main.process_analysis_pipeline`)

The driver mutates one job record and pushes it to the store at each
milestone; the reachable record states are the trace below.  Exceptions of
the extraction, analysis and result-construction steps are the only ones
that reach the `except` blocks (link enrichment failure is caught locally
and only degrades the links value). -/

/-- Python exception classes distinguished by the pipeline's handlers. -/
inductive PyErr where
  | valueError (msg : List Char)
  | runtimeError (msg : List Char)
  | otherError (msg : List Char)

/-- The bounded error string each handler stores. -/
def truncErr : PyErr → List Char
  | .valueError m => m.take 200
  | .runtimeError m => m.take 200
  | .otherError m => "Unexpected error: ".data ++ m.take 180

/-- The sequence of job-record states produced by one pipeline run, given
the outcome of each failable step.  `found = false` models the initial
`job_store.get` miss (the task returns at once). -/
def pipelineTrace (jid : List Char) (found : Bool)
    (extractO : Except PyErr Unit) (analyzeO : Except PyErr Json)
    (buildO : Except PyErr Json) : List JobRec :=
  let j0 : JobRec := ⟨jid, .queued, 0, none, none⟩
  if !found then [j0]
  else
    let j1 := { j0 with status := .processing, progress := 10 }
    match extractO with
    | .error e => [j0, j1, { j1 with status := .failed, error := some (truncErr e) }]
    | .ok _ =>
      let j2 := { j1 with progress := 35 }
      match analyzeO with
      | .error e => [j0, j1, j2, { j2 with status := .failed, error := some (truncErr e) }]
      | .ok _ =>
        let j3 := { j2 with progress := 70 }
        let j4 := { j3 with progress := 85 }
        match buildO with
        | .error e =>
          [j0, j1, j2, j3, j4, { j4 with status := .failed, error := some (truncErr e) }]
        | .ok res =>
          let j5 := { j4 with progress := 95 }
          let j6 : JobRec := ⟨jid, .completed, 100, some res, none⟩
          [j0, j1, j2, j3, j4, j5, j6]

/-! ## Submission and status endpoints (`main.submit_analysis`,
`main.get_job_status`) -/

/-- Embedding of the cache-hit short circuit of `submit_analysis`: the
sentinel descriptor uses the literal id `"cache"` and the store is not
touched; otherwise a fresh uuid4 id is added with `queued`/`0`. -/
def submitAnalysis (now : Int) (cacheHit : Bool) (cached : Json)
    (newId : List Char) (st : JStore) : JStore × JobRec :=
  if cacheHit then
    (st, ⟨"cache".data, .completed, 100, some cached, none⟩)
  else
    let rec0 : JobRec := ⟨newId, .queued, 0, none, none⟩
    (jsAdd now newId rec0 st, rec0)

/-- Embedding of `get_job_status`: 404 when the store misses. -/
def getJobStatusEndpoint (st : JStore) (id : List Char) : Except Nat JobRec :=
  match jsGet st id with
  | some j => .ok j
  | none => .error 404

/-- System-level operations that can touch the job store, for the sentinel
invariant: submissions (with generated uuid ids), pipeline updates,
removals, sweeps, stats and clears. -/
inductive SysOp where
  | submit (n : Nat) (cacheHit : Bool) (cached : Json) (now : Int)
  | update (id : List Char) (rec : JobRec)
  | remove (id : List Char)
  | cleanup (now : Int)
  | stats (now : Int)
  | clear

/-- One step of the system, with `g` the uuid4 generator. -/
def sysStep (g : Nat → List Char) (st : JStore) : SysOp → JStore
  | .submit n hit cached now => (submitAnalysis now hit cached (g n) st).1
  | .update id rec => (jsUpdate id rec st).1
  | .remove id => (jsRemove id st).1
  | .cleanup now => (jsCleanup now st).1
  | .stats now => (jsStats now st).1
  | .clear => (jsClear st).1

/-- Run a sequence of operations from the empty store. -/
def sysRun (g : Nat → List Char) (ttl : Int) (ops : List SysOp) : JStore :=
  ops.foldl (sysStep g) (jsEmpty ttl)

/-! ## Restricted JSON class for the code-block equivalence claim

The counterexample below shows the fenced-block-with-trailing-comma claim
fails once braces nest two levels down (the one-level brace regex then
captures a strict sub-object); the amended claim quantifies over objects
with at most one level of nesting whose strings stay clear of the
characters the regexes and the comma repair react to. -/

/-- Characters inert for every scanner involved: letters, digits,
spaces. -/
def safeChr (c : Char) : Bool := c.isAlphanum || c == ' '

/-- A string of inert characters. -/
def safeStr (s : List Char) : Bool := s.all safeChr

/-- Depth-0 values of the restricted class: inert strings and canonical
non-negative integers. -/
def scalarOk : Json → Bool
  | .str s => safeStr s
  | .num neg ip frac ex =>
    !neg && digitsOk ip && (ip.length == 1 || ip.headD 0 != 0) &&
    frac.isNone && ex.isNone
  | _ => false

/-- Depth-1 values: objects of inert keys and depth-0 values. -/
def flatObjOk : Json → Bool
  | .obj kvs => kvs.all (fun p => safeStr p.1 && scalarOk p.2) && keysUnique kvs
  | _ => false

/-- The restricted class of the amended code-block claim: an object whose
keys are inert and whose values are depth-0 scalars or depth-1 objects. -/
def c6Ok : Json → Bool
  | .obj kvs =>
    kvs.all (fun p => safeStr p.1 && (scalarOk p.2 || flatObjOk p.2)) &&
    keysUnique kvs
  | _ => false

/-- Character list without braces. -/
def noBrace (l : List Char) : Bool :=
  l.all (fun c => !(c == '{') && !(c == '}'))

/-- Character lists in the language of the one-level brace pattern's body
(`[^{}]*(?:\{[^{}]*\}[^{}]*)*`). -/
inductive FlatChars : List Char → Prop where
  | flat (r : List Char) (h : noBrace r = true) : FlatChars r
  | nest (r inner rest : List Char) (hr : noBrace r = true)
      (hi : noBrace inner = true) (hrest : FlatChars rest) :
      FlatChars (r ++ '{' :: (inner ++ '}' :: rest))

/-- Printed characters of the restricted scalar class: inert characters
plus the string quote. -/
def tameChr (c : Char) : Bool := safeChr c || c == '"'

/-- Character lists the trailing-comma repair of `_fix_json_issues` passes
through unchanged: any character other than a comma, or a comma-space pair
followed by a character that is neither a closer, whitespace nor another
comma (so the pending comma is flushed verbatim). -/
inductive FjiSafe : List Char → Prop where
  | nil : FjiSafe []
  | plain (c : Char) (rest : List Char) (hc : (c == ',') = false)
      (h : FjiSafe rest) : FjiSafe (c :: rest)
  | sep (d : Char) (rest : List Char) (hd : closerChar d = false)
      (hsp : pyIsSpace d = false) (hcm : (d == ',') = false)
      (h : FjiSafe (d :: rest)) : FjiSafe (',' :: ' ' :: d :: rest)

/-! ## Fuel measure for the parser roundtrip -/

mutual

/-- Fuel sufficient for `pV` to parse the printed form of a value. -/
def Jfuel : Json → Nat
  | .null => 1
  | .jbool _ => 1
  | .num _ _ _ _ => 1
  | .str _ => 1
  | .arr xs => 1 + JfuelL xs
  | .obj kvs => 1 + JfuelM kvs
termination_by structural v => v

/-- Fuel for the element loop. -/
def JfuelL : List Json → Nat
  | [] => 0
  | x :: xs => 1 + Jfuel x + JfuelL xs
termination_by structural l => l

/-- Fuel for the member loop. -/
def JfuelM : List (List Char × Json) → Nat
  | [] => 0
  | (_, v) :: r => 1 + Jfuel v + JfuelM r
termination_by structural l => l

end

/-- Characters that may legally follow a printed JSON number inside a
larger printed value (so the number scanner stops exactly there). -/
def followOk : List Char → Bool
  | [] => true
  | c :: _ => c == ',' || c == ']' || c == '}'

/-! # Theorems

General helper lemmas first, then the claim theorems (named by claim id in
their doc comments). -/

theorem dropWhileAllFalse (p : α → Bool) (l : List α)
    (h : ∀ a ∈ l, p a = false) : l.dropWhile p = l := by
  cases l with
  | nil => rfl
  | cons a r =>
    rw [List.dropWhile_cons, h a (List.mem_cons_self a r)]
    simp

theorem dropWhileAllTrue (p : α → Bool) (l : List α)
    (h : ∀ a ∈ l, p a = true) : l.dropWhile p = [] := by
  induction l with
  | nil => rfl
  | cons a r ih =>
    rw [List.dropWhile_cons, h a (List.mem_cons_self a r)]
    exact ih (fun b hb => h b (List.mem_cons_of_mem a hb))

theorem aGet_aUpsert_self {α : Type} (l : List (List Char × α)) (k : List Char)
    (v : α) : aGet (aUpsert l k v) k = some v := by
  induction l with
  | nil =>
    show aGet [(k, v)] k = some v
    unfold aGet
    rw [List.find?_cons_of_pos _ (by simp)]
    rfl
  | cons p r ih =>
    obtain ⟨k', v'⟩ := p
    by_cases h : k' = k
    · subst h
      rw [show aUpsert ((k', v') :: r) k' v = (k', v) :: r by simp [aUpsert]]
      unfold aGet
      rw [List.find?_cons_of_pos _ (by simp)]
      rfl
    · have hb : (k' == k) = false := by simpa using h
      have hun : aUpsert ((k', v') :: r) k v = (k', v') :: aUpsert r k v := by
        simp [aUpsert, hb]
      rw [hun]
      unfold aGet
      rw [List.find?_cons_of_neg _ (by simp [hb])]
      exact ih

theorem aGet_none_of_keys {α : Type} (l : List (List Char × α)) (k : List Char)
    (h : ∀ p ∈ l, p.1 ≠ k) : aGet l k = none := by
  induction l with
  | nil => rfl
  | cons p r ih =>
    have hb : (p.1 == k) = false := by
      simpa using h p (List.mem_cons_self p r)
    simp only [aGet, List.find?, hb]
    exact ih (fun q hq => h q (List.mem_cons_of_mem p hq))

theorem mem_aUpsert {α : Type} (l : List (List Char × α)) (k : List Char)
    (v : α) : ∀ p ∈ aUpsert l k v, p ∈ l ∨ p = (k, v) := by
  induction l with
  | nil => intro p hp; simp [aUpsert] at hp; right; exact hp
  | cons q r ih =>
    intro p hp
    by_cases h : (q.1 == k) = true
    · simp only [aUpsert, h, if_pos] at hp
      rcases List.mem_cons.mp hp with h1 | h2
      · right; obtain rfl := h1; obtain rfl := beq_iff_eq.mp h; rfl
      · left; exact List.mem_cons_of_mem q h2
    · simp only [aUpsert, h, if_neg, Bool.false_eq_true, not_false_iff] at hp
      rcases List.mem_cons.mp hp with h1 | h2
      · left; exact h1 ▸ List.mem_cons_self q r
      · rcases ih p h2 with h3 | h3
        · left; exact List.mem_cons_of_mem q h3
        · right; exact h3

/-- Claim C1 counterexample: a record created at time 0 with TTL 3600 is
sweep-eligible at call time 100000, yet `JobStore.get` still returns it —
`get` performs a plain dict lookup and never triggers the sweep. -/
theorem C1_counterexample :
    (0 : Int) <
      100000 - (jsAdd 0 "j".data ⟨"j".data, .queued, 0, none, none⟩
        (jsEmpty 3600)).ttl ∧
    jsGet (jsAdd 0 "j".data ⟨"j".data, .queued, 0, none, none⟩ (jsEmpty 3600))
        "j".data ≠ none := by
  constructor
  · decide
  · rw [show jsGet (jsAdd 0 "j".data ⟨"j".data, .queued, 0, none, none⟩
        (jsEmpty 3600)) "j".data =
        some ⟨"j".data, .queued, 0, none, none⟩ from rfl]
    simp

/-- Claim C1, amended: `JobStore.get` does not sweep; an expired record
stays visible to `get` until a sweeping operation (`add`, `stats`,
`list_jobs`, or `cleanup` itself) runs.  Once `cleanup` runs at a time past
the record's expiry, a subsequent `get` returns not-found. -/
theorem C1_amended (s : JStore) (id : List Char) (c now : Int)
    (hc : aGet s.createdAt id = some c) (hexp : c < now - s.ttl) :
    jsGet (jsCleanup now s).1 id = none := by
  obtain ⟨p, hfind, hp2⟩ :
      ∃ p, s.createdAt.find? (fun q => q.1 == id) = some p ∧ p.2 = c := by
    unfold aGet at hc
    rcases Option.map_eq_some'.mp hc with ⟨p, hfind, hp2⟩
    exact ⟨p, hfind, hp2⟩
  have hpmem : p ∈ s.createdAt := List.mem_of_find?_eq_some hfind
  have hpk' := List.find?_some hfind
  have hpk : p.1 = id := by simpa using hpk'
  have hpexp : (decide (p.2 < now - s.ttl)) = true := by
    rw [hp2]; exact decide_eq_true hexp
  have hmem : p.1 ∈ (s.createdAt.filter
      (fun q => decide (q.2 < now - s.ttl))).map (·.1) :=
    List.mem_map_of_mem _ (List.mem_filter.mpr ⟨hpmem, hpexp⟩)
  apply aGet_none_of_keys
  intro q hq hk
  have hqf := (List.mem_filter.mp hq).2
  have : ((s.createdAt.filter (fun q => decide (q.2 < now - s.ttl))).map
      (·.1)).any (· == q.1) = true := by
    apply List.any_eq_true.mpr
    exact ⟨p.1, hmem, by simp [hpk, hk]⟩
  rw [this] at hqf
  simp at hqf

/-- Witness for the amended claim C1 at a concrete store. -/
theorem C1_amended_witness :
    aGet (jsAdd 0 "j".data ⟨"j".data, .queued, 0, none, none⟩
      (jsEmpty 3600)).createdAt "j".data = some 0 ∧
    (0 : Int) < 100000 - (jsAdd 0 "j".data ⟨"j".data, .queued, 0, none, none⟩
      (jsEmpty 3600)).ttl ∧
    jsGet (jsCleanup 100000 (jsAdd 0 "j".data
      ⟨"j".data, .queued, 0, none, none⟩ (jsEmpty 3600))).1 "j".data = none :=
  ⟨rfl, by decide,
   C1_amended _ "j".data 0 100000 rfl (by decide)⟩

/-- Claim C2 counterexample: `record_groq_usage` appends without cleaning,
so right after a record the window can still hold a timestamp older than
the 60-second window (here 0, at now = 100). -/
theorem C2_counterexample :
    (recordGroqUsage ⟨[0], [], 150, 8⟩ 100).groqHist = [0, 100] ∧
    windowSeconds < (100 : Int) - 0 := by
  constructor
  · rfl
  · decide

/-- Everything surviving `_clean_history` of a sorted history is within the
window. -/
theorem mem_cleanHistory (now : Int) (h : List Int) (hs : h.Sorted (· ≤ ·)) :
    ∀ t ∈ cleanHistory now h, now - t ≤ windowSeconds := by
  induction h with
  | nil => intro t ht; simp [cleanHistory] at ht
  | cons a r ih =>
    rw [List.sorted_cons] at hs
    obtain ⟨ha, hr⟩ := hs
    by_cases hp : a < now - windowSeconds
    · intro t ht
      refine ih hr t ?_
      simpa [cleanHistory, List.dropWhile_cons, hp] using ht
    · intro t ht
      rw [show cleanHistory now (a :: r) = a :: r by
        simp [cleanHistory, List.dropWhile_cons, hp]] at ht
      rcases List.mem_cons.mp ht with rfl | htr
      · omega
      · have := ha t htr; omega

/-- Claim C2, amended: stale entries are evicted before every read (each
admission check and the stats call), and every timestamp surviving such a
read is within `window_seconds` of now; a `record`, however, appends
without evicting, so stale timestamps survive it until the next read. -/
theorem C2_amended (st : RateState) (now : Int)
    (hg : st.groqHist.Sorted (· ≤ ·)) (hm : st.geminiHist.Sorted (· ≤ ·))
    (hlen : st.groqHist.length < 500) :
    (∀ t ∈ (canUseGroq st now).2.groqHist, now - t ≤ windowSeconds) ∧
    (∀ t ∈ (canUseGemini st now).2.geminiHist, now - t ≤ windowSeconds) ∧
    (∀ t ∈ (getStats st now).2.groqHist, now - t ≤ windowSeconds) ∧
    (∀ t ∈ (getStats st now).2.geminiHist, now - t ≤ windowSeconds) ∧
    (recordGroqUsage st now).groqHist = st.groqHist ++ [now] := by
  refine ⟨mem_cleanHistory now _ hg, mem_cleanHistory now _ hm,
    mem_cleanHistory now _ hg, mem_cleanHistory now _ hm, ?_⟩
  simp only [recordGroqUsage, dequeAppend]
  rw [if_neg (by omega)]

/-- Witness for the amended claim C2 at a concrete state. -/
theorem C2_amended_witness :
    (∀ t ∈ (canUseGroq ⟨[0, 50], [], 150, 8⟩ 70).2.groqHist,
      (70 : Int) - t ≤ windowSeconds) ∧
    (recordGroqUsage ⟨[0, 50], [], 150, 8⟩ 70).groqHist = [0, 50, 70] :=
  ⟨(C2_amended ⟨[0, 50], [], 150, 8⟩ 70 (by simp) (by simp) (by decide)).1,
   (C2_amended ⟨[0, 50], [], 150, 8⟩ 70 (by simp) (by simp) (by decide)).2.2.2.2⟩

/-- Claim C3 counterexample: with a limit of 1 and one record at time 0, an
admission check after a clock advance of exactly the window width (60)
still returns `false` — eviction uses a strict comparison, so the boundary
timestamp survives. -/
theorem C3_counterexample :
    (canUseGroq (recordGroqUsage ⟨[], [], 1, 8⟩ 0) 60).1 = false ∧
    windowSeconds ≤ (60 : Int) - 0 := by decide

/-- Records fold to an append while the deque stays below its `maxlen`. -/
theorem foldl_recordGroq (times : List Int) (st : RateState)
    (hlen : st.groqHist.length + times.length ≤ 500) :
    (times.foldl recordGroqUsage st).groqHist = st.groqHist ++ times ∧
    (times.foldl recordGroqUsage st).groqLimit = st.groqLimit := by
  induction times generalizing st with
  | nil => simp
  | cons t r ih =>
    have hstep : recordGroqUsage st t =
        { st with groqHist := st.groqHist ++ [t] } := by
      simp only [recordGroqUsage, dequeAppend]
      rw [if_neg (by simp at hlen ⊢; omega)]
    rw [List.foldl_cons, hstep]
    have := ih { st with groqHist := st.groqHist ++ [t] }
      (by simp at hlen ⊢; omega)
    simpa using this

/-- Claim C3, amended: after exactly N records within the current window
(limit N ≥ 1, N within the deque bound), the next admission check returns
`false`; once the clock advances by strictly more than the window width
past every record, the next admission check returns `true` again.  (The
eviction comparison is strict, so an advance of exactly the window width
is not enough — see the counterexample.) -/
theorem C3_amended (lim glim : Nat) (gh : List Int)
    (hlim : 1 ≤ lim) (hmax : lim ≤ 500)
    (times : List Int) (hlen : times.length = lim)
    (now1 now2 : Int)
    (hwin : ∀ t ∈ times, now1 - windowSeconds ≤ t)
    (hadv : ∀ t ∈ times, windowSeconds < now2 - t) :
    (canUseGroq (times.foldl recordGroqUsage ⟨[], gh, lim, glim⟩) now1).1 =
      false ∧
    (canUseGroq
      ((canUseGroq (times.foldl recordGroqUsage ⟨[], gh, lim, glim⟩) now1).2)
      now2).1 = true := by
  obtain ⟨hh, hl⟩ := foldl_recordGroq times ⟨[], gh, lim, glim⟩ (by simpa [hlen])
  have hclean1 : cleanHistory now1 times = times := by
    apply dropWhileAllFalse
    intro t ht
    have := hwin t ht
    simp; omega
  have hclean2 : cleanHistory now2 times = [] := by
    apply dropWhileAllTrue
    intro t ht
    have := hadv t ht
    simp; omega
  constructor
  · simp only [canUseGroq, hh, hl, List.nil_append, hclean1]
    simp [hlen]
  · simp only [canUseGroq, hh, hl, List.nil_append, hclean1, hclean2]
    simp; omega

/-- Witness for the amended claim C3 at a concrete run. -/
theorem C3_amended_witness :
    (canUseGroq ([(0 : Int)].foldl recordGroqUsage ⟨[], [], 1, 8⟩) 0).1 =
      false ∧
    (canUseGroq ((canUseGroq ([(0 : Int)].foldl recordGroqUsage
      ⟨[], [], 1, 8⟩) 0).2) 61).1 = true :=
  C3_amended 1 8 [] (by decide) (by decide) [0] rfl 0 61 (by decide) (by decide)

/-- Claim C4: with Groq configured, under the token ceiling and admitted
but its call raising, and Gemini configured, admitted and succeeding,
`analyze` returns Gemini's parsed result; exactly one timestamp is appended
to each provider's window, and each record event precedes the corresponding
call event in the trace. -/
theorem C4_provider_fallback (cfg : OrchCfg) (eg tg : List Char)
    (st : RateState) (now : Int)
    (hgc : cfg.groqConfigured = true)
    (htok : cfg.tokenCountLlama < cfg.groqMaxTokens)
    (hadm : (cleanHistory now st.groqHist).length < st.groqLimit)
    (hgmc : cfg.geminiConfigured = true)
    (hgadm : (cleanHistory now st.geminiHist).length < st.geminiLimit)
    (hql : st.groqLimit ≤ 500) (hgl : st.geminiLimit ≤ 100) :
    analyze cfg (.error eg) (.ok tg) st now =
      (.ok (parseJsonResponse tg),
       ⟨cleanHistory now st.groqHist ++ [now],
        cleanHistory now st.geminiHist ++ [now],
        st.groqLimit, st.geminiLimit⟩,
       [.recordGroq, .callGroq, .recordGemini, .callGemini]) := by
  have hg1 : (cfg.groqConfigured &&
      decide (cfg.tokenCountLlama < cfg.groqMaxTokens)) = true := by
    rw [hgc, decide_eq_true htok]; rfl
  unfold analyze
  rw [if_pos hg1]
  simp only [canUseGroq]
  rw [if_pos (decide_eq_true hadm)]
  simp only [recordGroqUsage]
  unfold analyzeGemini
  rw [hgmc, if_pos rfl]
  simp only [canUseGemini]
  rw [if_pos (decide_eq_true hgadm)]
  simp only [recordGeminiUsage, dequeAppend]
  rw [if_neg (by simp; omega), if_neg (by simp; omega)]
  rfl

/-- Witness for claim C4 at a concrete configuration and state. -/
theorem C4_provider_fallback_witness :
    analyze ⟨true, true, 10, 100⟩ (.error "x".data)
        (.ok (printVal (.obj []))) ⟨[], [], 150, 8⟩ 0 =
      (.ok (parseJsonResponse (printVal (.obj []))),
       ⟨cleanHistory 0 [] ++ [0], cleanHistory 0 [] ++ [0], 150, 8⟩,
       [.recordGroq, .callGroq, .recordGemini, .callGemini]) :=
  C4_provider_fallback ⟨true, true, 10, 100⟩ "x".data (printVal (.obj []))
    ⟨[], [], 150, 8⟩ 0 rfl (by decide) (by decide) rfl (by decide)
    (by decide) (by decide)

/-- Claim C8: a get that misses the volatile tier and hits the durable tier
returns the stored value, whatever the outcome of the best-effort
write-back and access-counter flags. -/
theorem C8_cold_hit (env : CacheEnv) (now : Int) (st : CacheState)
    (url : List Char) (row : ColdRow) (v : Json)
    (h1 : env.hotReadOk = true) (h2 : env.coldReadOk = true)
    (hmiss : (hotGet now st.ttl st.hot (hashUrl url)).1 = none)
    (hrow : aGet st.cold (hashUrl url) = some row)
    (hparse : jsonLoads row.payload = some v) :
    (cacheGet env now st url).1 = some v := by
  obtain ⟨hro, hwo, hco, hcu, hcw⟩ := env
  simp only at h1 h2
  subst h1
  subst h2
  rcases hhot : hotGet now st.ttl st.hot (hashUrl url) with ⟨d, hot1⟩
  rw [hhot] at hmiss
  simp only at hmiss
  subst hmiss
  cases hwo <;> cases hcu <;>
    simp [cacheGet, cacheGetCold, hhot, hrow, hparse]

/-- Witness for claim C8: the cold row is returned even though both the
rehydration and the access-counter update fail. -/
theorem C8_cold_hit_witness :
    (cacheGet ⟨true, false, true, false, true⟩ 5
      ⟨86400, [], [(hashUrl "u".data,
        ⟨"u".data, printVal (.obj []), 0, 0, 1⟩)]⟩ "u".data).1 =
      some (.obj []) :=
  C8_cold_hit ⟨true, false, true, false, true⟩ 5
    ⟨86400, [], [(hashUrl "u".data, ⟨"u".data, printVal (.obj []), 0, 0, 1⟩)]⟩
    "u".data ⟨"u".data, printVal (.obj []), 0, 0, 1⟩ (.obj [])
    rfl rfl rfl (by rw [show aGet [(hashUrl "u".data,
      (⟨"u".data, printVal (.obj []), 0, 0, 1⟩ : ColdRow))] (hashUrl "u".data) =
      some ⟨"u".data, printVal (.obj []), 0, 0, 1⟩ from
        aGet_aUpsert_self [] (hashUrl "u".data) _]) rfl

/-- Claim C5 counterexample: on an empty provider response every strategy
fails, but the synthesized post summary is a fixed error message, not the
claimed 400-character prefix of the raw text (which would be empty). -/
theorem C5_counterexample :
    jsonField (parseJsonResponse []) "summary_post".data =
      some (.str "Error al procesar respuesta del LLM".data) ∧
    "Error al procesar respuesta del LLM".data ≠
      List.take 400 ([] : List Char) := by
  constructor
  · rfl
  · decide

/-- Claim C5, amended: the cascade is total; when every strategy fails the
result is the deterministic fallback — the 400-character prefix as post
summary (a fixed error message when the response is empty), characters
400..1000 as comment summary, both sentiments Neutro with score 0.5 and an
explanatory note, consensus marked unavailable, empty lists.  And
`analyze` errors only when every provider it attempted raised — never
because a reached provider's output was unparseable. -/
theorem C5_amended :
    (∀ text : List Char,
      jsonLoads text = none →
      (extractCodeBlock text).bind jsonLoads = none →
      (braceMatch text).bind jsonLoads = none →
      jsonLoads (pyStrip (removeCtl text)) = none →
      ((greedyBrace text).map fixJsonIssues).bind jsonLoads = none →
      parseJsonResponse text = .obj
        [("summary_post".data,
          .str (if text.isEmpty then "Error al procesar respuesta del LLM".data
                else text.take 400)),
         ("summary_comments".data, .str ((text.drop 400).take 600)),
         ("sentiment_post".data, .obj
           [("label".data, .str "Neutro".data),
            ("score".data, .num false [0] (some [5]) none),
            ("details".data,
             .str "Error de parseo: no se pudo extraer JSON válido".data)]),
         ("sentiment_comments".data, .obj
           [("label".data, .str "Neutro".data),
            ("score".data, .num false [0] (some [5]) none),
            ("details".data,
             .str "Error de parseo: no se pudo extraer JSON válido".data)]),
         ("consensus".data,
          .str "No disponible debido a error de procesamiento".data),
         ("key_controversies".data, .arr []),
         ("useful_links".data, .arr [])]) ∧
    (∀ (cfg : OrchCfg) (go geo : Except (List Char) (List Char))
       (st : RateState) (now : Int) (e : List Char),
      (analyze cfg go geo st now).1 = .error e →
      ((OrchEvent.callGroq ∈ (analyze cfg go geo st now).2.2) →
        ∃ m, go = .error m) ∧
      ((OrchEvent.callGemini ∈ (analyze cfg go geo st now).2.2) →
        ∃ m, geo = .error m)) := by
  constructor
  · intro text h1 h2 h3 h4 h5
    have hpe : parseJsonResponse text = fallbackResponse text := by
      unfold parseJsonResponse
      rw [h1, h2, h3, h4, h5]
    rw [hpe]
    unfold fallbackResponse neutralSentiment
    by_cases hlen : 400 < text.length
    · rw [if_pos hlen]
    · rw [if_neg hlen]
      rw [List.drop_eq_nil_of_le (by omega), List.take_nil]
  · intro cfg go geo st now e h
    have hgem : ∀ st' : RateState,
        (analyzeGemini cfg geo st' now []).1 = .error e →
        ((OrchEvent.callGroq ∈ (analyzeGemini cfg geo st' now []).2.2) →
          ∃ m, go = .error m) ∧
        ((OrchEvent.callGemini ∈ (analyzeGemini cfg geo st' now []).2.2) →
          ∃ m, geo = .error m) := by
      intro st' hg
      simp only [analyzeGemini] at hg ⊢
      by_cases hB : cfg.geminiConfigured = true
      · rw [if_pos hB] at hg ⊢
        by_cases hq : (canUseGemini st' now).1 = true
        · rw [if_pos hq] at hg ⊢
          cases geo with
          | ok t2 => exact absurd hg (by simp)
          | error m2 => exact ⟨fun hc => by simp at hc, fun _ => ⟨m2, rfl⟩⟩
        · rw [if_neg hq] at hg ⊢
          exact ⟨fun hc => by simp at hc, fun hc => by simp at hc⟩
      · rw [if_neg hB] at hg ⊢
        exact ⟨fun hc => by simp at hc, fun hc => by simp at hc⟩
    simp only [analyze] at h ⊢
    by_cases hA : (cfg.groqConfigured &&
        decide (cfg.tokenCountLlama < cfg.groqMaxTokens)) = true
    · rw [if_pos hA] at h ⊢
      by_cases hcg : (canUseGroq st now).1 = true
      · rw [if_pos hcg] at h ⊢
        cases go with
        | ok t => exact absurd h (by simp)
        | error m =>
          simp only [analyzeGemini] at h ⊢
          by_cases hB : cfg.geminiConfigured = true
          · rw [if_pos hB] at h ⊢
            by_cases hq : (canUseGemini
                (recordGroqUsage (canUseGroq st now).2 now) now).1 = true
            · rw [if_pos hq] at h ⊢
              cases geo with
              | ok t2 => exact absurd h (by simp)
              | error m2 => exact ⟨fun _ => ⟨m, rfl⟩, fun _ => ⟨m2, rfl⟩⟩
            · rw [if_neg hq] at h ⊢
              exact ⟨fun _ => ⟨m, rfl⟩, fun hc => by simp at hc⟩
          · rw [if_neg hB] at h ⊢
            exact ⟨fun _ => ⟨m, rfl⟩, fun hc => by simp at hc⟩
      · rw [if_neg hcg] at h ⊢
        exact hgem _ h
    · rw [if_neg hA] at h ⊢
      rw [if_neg (by simp)] at h ⊢
      exact hgem _ h

/-- Witness for the amended claim C5 at a concrete unparseable response. -/
theorem C5_amended_witness :
    jsonLoads "hello world".data = none ∧
    parseJsonResponse "hello world".data = .obj
      [("summary_post".data,
        .str (if ("hello world".data).isEmpty
              then "Error al procesar respuesta del LLM".data
              else ("hello world".data).take 400)),
       ("summary_comments".data, .str ((("hello world".data).drop 400).take 600)),
       ("sentiment_post".data, .obj
         [("label".data, .str "Neutro".data),
          ("score".data, .num false [0] (some [5]) none),
          ("details".data,
           .str "Error de parseo: no se pudo extraer JSON válido".data)]),
       ("sentiment_comments".data, .obj
         [("label".data, .str "Neutro".data),
          ("score".data, .num false [0] (some [5]) none),
          ("details".data,
           .str "Error de parseo: no se pudo extraer JSON válido".data)]),
       ("consensus".data,
        .str "No disponible debido a error de procesamiento".data),
       ("key_controversies".data, .arr []),
       ("useful_links".data, .arr [])] :=
  ⟨rfl, C5_amended.1 "hello world".data rfl rfl rfl rfl rfl⟩

/-- Claim C9: along every trace the pipeline can produce, progress is
non-decreasing (even into the failed state), the result field is non-null
exactly in the completed state, and the error field is non-null exactly in
the failed state. -/
theorem C9_record_invariants (jid : List Char) (found : Bool)
    (eo : Except PyErr Unit) (ao bo : Except PyErr Json) :
    List.Chain' (fun a b => a.progress ≤ b.progress)
      (pipelineTrace jid found eo ao bo) ∧
    ∀ j ∈ pipelineTrace jid found eo ao bo,
      ((j.result ≠ none ↔ j.status = .completed) ∧
       (j.error ≠ none ↔ j.status = .failed)) := by
  cases found <;> cases eo <;> cases ao <;> cases bo <;>
    simp [pipelineTrace, List.chain'_cons]

/-- Every job key ever stored has uuid4 length, so the sentinel id is never
a key. -/
theorem sysStep_keys (g : Nat → List Char) (hg : ∀ n, (g n).length = 36)
    (st : JStore) (op : SysOp)
    (hinv : ∀ p ∈ st.jobs, p.1.length = 36) :
    ∀ p ∈ (sysStep g st op).jobs, p.1.length = 36 := by
  cases op with
  | submit n hit cached now =>
    cases hit with
    | true => exact hinv
    | false =>
      intro p hp
      simp only [sysStep, submitAnalysis, Bool.false_eq_true, if_neg,
        not_false_iff, jsAdd] at hp
      rcases mem_aUpsert _ _ _ p hp with hin | rfl
      · exact hinv p (List.mem_filter.mp hin).1
      · exact hg n
  | update id rec =>
    intro p hp
    simp only [sysStep, jsUpdate] at hp
    by_cases h : (st.jobs.any (fun q => q.1 == id)) = true
    · rw [if_pos h] at hp
      rcases mem_aUpsert _ _ _ p hp with hin | rfl
      · exact hinv p hin
      · obtain ⟨q, hq, hqid⟩ := List.any_eq_true.mp h
        have : q.1 = id := by simpa using hqid
        rw [← this]
        exact hinv q hq
    · rw [if_neg h] at hp
      exact hinv p hp
  | remove id =>
    intro p hp
    simp only [sysStep, jsRemove] at hp
    by_cases h : (st.jobs.any (fun q => q.1 == id)) = true
    · rw [if_pos h] at hp
      exact hinv p (List.mem_filter.mp hp).1
    · rw [if_neg h] at hp
      exact hinv p hp
  | cleanup now =>
    intro p hp
    simp only [sysStep, jsCleanup] at hp
    exact hinv p (List.mem_filter.mp hp).1
  | stats now =>
    intro p hp
    simp only [sysStep, jsStats, jsCleanup] at hp
    exact hinv p (List.mem_filter.mp hp).1
  | clear =>
    intro p hp
    simp [sysStep, jsClear] at hp

/-- Claim C10: starting from the empty store, no sequence of system
operations ever inserts the sentinel id `"cache"`, so polling the status
endpoint with it always returns 404. -/
theorem C10_sentinel (g : Nat → List Char) (hg : ∀ n, (g n).length = 36)
    (ttl : Int) (ops : List SysOp) :
    getJobStatusEndpoint (sysRun g ttl ops) "cache".data = .error 404 := by
  have hinv : ∀ p ∈ (sysRun g ttl ops).jobs, p.1.length = 36 := by
    unfold sysRun
    have hgen : ∀ (st : JStore) (l : List SysOp),
        (∀ p ∈ st.jobs, p.1.length = 36) →
        ∀ p ∈ (l.foldl (sysStep g) st).jobs, p.1.length = 36 := by
      intro st l
      induction l generalizing st with
      | nil => intro h; exact h
      | cons op rest ih =>
        intro h
        exact ih _ (sysStep_keys g hg st op h)
    exact hgen (jsEmpty ttl) ops (by intro p hp; simp [jsEmpty] at hp)
  have hnone : jsGet (sysRun g ttl ops) "cache".data = none := by
    apply aGet_none_of_keys
    intro p hp heq
    have h36 := hinv p hp
    rw [heq] at h36
    simp at h36
  unfold getJobStatusEndpoint
  rw [hnone]

/-- Witness for claim C10 with a concrete generator and operation list
(including an update aimed at the sentinel id, which must not insert). -/
theorem C10_sentinel_witness :
    (∀ n, ((fun _ : Nat => "abcdefghijklmnopqrstuvwxyz0123456789".data) n).length
      = 36) ∧
    getJobStatusEndpoint (sysRun
      (fun _ : Nat => "abcdefghijklmnopqrstuvwxyz0123456789".data) 3600
      [.submit 0 false (.obj []) 0,
       .update "cache".data ⟨"cache".data, .completed, 100, none, none⟩,
       .cleanup 10]) "cache".data = .error 404 :=
  ⟨by
    intro n
    exact (by decide :
      ("abcdefghijklmnopqrstuvwxyz0123456789".data).length = 36),
   C10_sentinel _ (by
    intro n
    exact (by decide :
      ("abcdefghijklmnopqrstuvwxyz0123456789".data).length = 36)) 3600
     [.submit 0 false (.obj []) 0,
      .update "cache".data ⟨"cache".data, .completed, 100, none, none⟩,
      .cleanup 10]⟩


/-! ## Parser-printer roundtrip machinery -/

theorem dropWhile_idem (p : α → Bool) (l : List α) :
    (l.dropWhile p).dropWhile p = l.dropWhile p := by
  induction l with
  | nil => rfl
  | cons a r ih =>
    cases hpa : p a with
    | true => simp [List.dropWhile_cons, hpa, ih]
    | false => simp [List.dropWhile_cons, hpa]

theorem skipWs_cons_not (c : Char) (r : List Char) (h : jsonWsChar c = false) :
    skipWs (c :: r) = c :: r := by
  simp [skipWs, List.dropWhile_cons, h]

theorem skipWs_skipWs (s : List Char) : skipWs (skipWs s) = skipWs s :=
  dropWhile_idem _ s

theorem skipWs_space (s : List Char) : skipWs (' ' :: s) = skipWs s := by
  simp [skipWs, List.dropWhile_cons, jsonWsChar]

theorem pV_skipWs (f : Nat) (s : List Char) : pV f (skipWs s) = pV f s := by
  cases f with
  | zero => rfl
  | succ f =>
    unfold pV
    rw [skipWs_skipWs]

theorem pV_space (f : Nat) (s : List Char) : pV f (' ' :: s) = pV f s := by
  rw [← pV_skipWs f (' ' :: s), skipWs_space, pV_skipWs]

theorem pElems_space (f : Nat) (s : List Char) (acc : List Json) :
    pElems f (' ' :: s) acc = pElems f s acc := by
  cases f with
  | zero => rfl
  | succ f =>
    unfold pElems
    rw [pV_space]

theorem pPairs_space (f : Nat) (s : List Char)
    (acc : List (List Char × Json)) :
    pPairs f (' ' :: s) acc = pPairs f s acc := by
  cases f with
  | zero => rfl
  | succ f =>
    unfold pPairs
    rw [skipWs_space]

theorem foldr_esc_append (s i t : List Char) :
    (s.foldr (fun c a => escChar c ++ a) i) ++ t =
      s.foldr (fun c a => escChar c ++ a) (i ++ t) := by
  induction s with
  | nil => rfl
  | cons c r ih => simp [List.foldr_cons, List.append_assoc, ih]

theorem hexVal_hexDigit (d : Nat) (h : d < 16) :
    hexVal (hexDigit d) = some d := by
  interval_cases d <;> decide

theorem pSB_quote (X : List Char) : parseStrBody ('"' :: X) = some ([], X) :=
  rfl

theorem pSB_u (a b c d : Char) (va vb vc vd : Nat) (X : List Char)
    (ha : hexVal a = some va) (hb : hexVal b = some vb)
    (hc : hexVal c = some vc) (hd : hexVal d = some vd)
    (hn : ((va * 16 + vb) * 16 + vc) * 16 + vd < 55296) :
    parseStrBody ('\\' :: 'u' :: a :: b :: c :: d :: X) =
      (parseStrBody X).map (fun p =>
        (Char.ofNat (((va * 16 + vb) * 16 + vc) * 16 + vd) :: p.1, p.2)) := by
  simp only [parseStrBody, ha, hb, hc, hd]
  rw [if_neg (by simp; omega)]

theorem pSB_escq (X : List Char) :
    parseStrBody ('\\' :: '"' :: X) =
      (parseStrBody X).map (fun p => ('"' :: p.1, p.2)) := rfl

theorem pSB_escbs (X : List Char) :
    parseStrBody ('\\' :: '\\' :: X) =
      (parseStrBody X).map (fun p => ('\\' :: p.1, p.2)) := rfl

theorem pSB_escb (X : List Char) :
    parseStrBody ('\\' :: 'b' :: X) =
      (parseStrBody X).map (fun p => ('\x08' :: p.1, p.2)) := rfl

theorem pSB_esct (X : List Char) :
    parseStrBody ('\\' :: 't' :: X) =
      (parseStrBody X).map (fun p => ('\t' :: p.1, p.2)) := rfl

theorem pSB_escn (X : List Char) :
    parseStrBody ('\\' :: 'n' :: X) =
      (parseStrBody X).map (fun p => ('\n' :: p.1, p.2)) := rfl

theorem pSB_escf (X : List Char) :
    parseStrBody ('\\' :: 'f' :: X) =
      (parseStrBody X).map (fun p => ('\x0c' :: p.1, p.2)) := rfl

theorem pSB_escr (X : List Char) :
    parseStrBody ('\\' :: 'r' :: X) =
      (parseStrBody X).map (fun p => ('\r' :: p.1, p.2)) := rfl

theorem pSB_raw (c : Char) (X : List Char) (h1 : (c == '"') = false)
    (h2 : (c == '\\') = false) (h3 : ¬ c.toNat < 32) :
    parseStrBody (c :: X) = (parseStrBody X).map (fun p => (c :: p.1, p.2)) := by
  conv_lhs => rw [parseStrBody.eq_def]
  split
  all_goals try (exfalso; simp_all; done)
  rename_i hconj
  obtain ⟨rfl, rfl⟩ := hconj
  rw [if_neg h3]

theorem parseStrBody_print (s rest : List Char) :
    parseStrBody (s.foldr (fun c a => escChar c ++ a) ('"' :: rest)) =
      some (s, rest) := by
  induction s with
  | nil => rfl
  | cons c r ih =>
    show parseStrBody (escChar c ++ r.foldr (fun c a => escChar c ++ a)
      ('"' :: rest)) = some (c :: r, rest)
    by_cases h1 : c = '"'
    · subst h1
      show parseStrBody ('\\' :: '"' :: _) = _
      rw [pSB_escq]
      simp [ih]
    · by_cases h2 : c = '\\'
      · subst h2
        show parseStrBody ('\\' :: '\\' :: _) = _
        rw [pSB_escbs]
        simp [ih]
      · have hb1 : (c == '"') = false := by simpa using h1
        have hb2 : (c == '\\') = false := by simpa using h2
        by_cases h3 : c.toNat < 32
        · by_cases hc8 : c = '\x08'
          · subst hc8
            show parseStrBody ('\\' :: 'b' :: _) = _
            rw [pSB_escb]
            simp [ih]
          · by_cases hc9 : c = '\t'
            · subst hc9
              show parseStrBody ('\\' :: 't' :: _) = _
              rw [pSB_esct]
              simp [ih]
            · by_cases hca : c = '\n'
              · subst hca
                show parseStrBody ('\\' :: 'n' :: _) = _
                rw [pSB_escn]
                simp [ih]
              · by_cases hcc : c = '\x0c'
                · subst hcc
                  show parseStrBody ('\\' :: 'f' :: _) = _
                  rw [pSB_escf]
                  simp [ih]
                · by_cases hcd : c = '\r'
                  · subst hcd
                    show parseStrBody ('\\' :: 'r' :: _) = _
                    rw [pSB_escr]
                    simp [ih]
                  · have hesc : escChar c = ['\\', 'u', '0', '0',
                        hexDigit (c.toNat >>> 4), hexDigit (c.toNat &&& 15)] := by
                      simp only [escChar, hb1, hb2, Bool.false_eq_true,
                        if_false, if_pos h3]
                      rw [if_neg (by simpa using hc8),
                        if_neg (by simpa using hc9),
                        if_neg (by simpa using hca),
                        if_neg (by simpa using hcc),
                        if_neg (by simpa using hcd)]
                    rw [hesc]
                    show parseStrBody ('\\' :: 'u' :: '0' :: '0' ::
                      hexDigit (c.toNat >>> 4) :: hexDigit (c.toNat &&& 15) ::
                      _) = _
                    have hsh : c.toNat >>> 4 = c.toNat / 16 := by
                      rw [Nat.shiftRight_eq_div_pow]
                    have hand : c.toNat &&& 15 = c.toNat % 16 := by
                      have h15 : (15 : Nat) = 2 ^ 4 - 1 := by norm_num
                      rw [h15, Nat.and_pow_two_sub_one_eq_mod]
                    have hv4 : c.toNat >>> 4 < 16 := by omega
                    have hv15 : c.toNat &&& 15 < 16 := by omega
                    rw [pSB_u _ _ _ _ 0 0 (c.toNat >>> 4) (c.toNat &&& 15) _
                      (by decide) (by decide) (hexVal_hexDigit _ hv4)
                      (hexVal_hexDigit _ hv15) (by omega)]
                    have hval : ((0 * 16 + 0) * 16 + c.toNat >>> 4) * 16 +
                        (c.toNat &&& 15) = c.toNat := by omega
                    rw [hval, Char.ofNat_toNat]
                    simp [ih]
        · have hesc : escChar c = [c] := by
            simp only [escChar, hb1, hb2, Bool.false_eq_true, if_false,
              if_neg h3]
          rw [hesc]
          show parseStrBody (c :: _) = _
          rw [pSB_raw c _ hb1 hb2 h3]
          simp [ih]
theorem digitChar_isDig (d : Nat) (h : d < 10) : isDig (digitChar d) = true := by
  interval_cases d <;> decide

theorem digitChar_toNat (d : Nat) (h : d < 10) : (digitChar d).toNat - 48 = d := by
  interval_cases d <;> decide

theorem parseDigits_print (ds : List Nat) (t : List Char)
    (hds : ∀ d ∈ ds, d < 10)
    (ht : ∀ c r, t = c :: r → isDig c = false) :
    parseDigits (ds.map digitChar ++ t) = (ds, t) := by
  induction ds with
  | nil =>
    cases t with
    | nil => rfl
    | cons c r =>
      simp only [List.map_nil, List.nil_append]
      unfold parseDigits
      rw [ht c r rfl]
      simp
  | cons d ds ih =>
    have hd : d < 10 := hds d (List.mem_cons_self d ds)
    simp only [List.map_cons, List.cons_append]
    unfold parseDigits
    rw [digitChar_isDig d hd]
    simp only [if_true]
    rw [ih (fun x hx => hds x (List.mem_cons_of_mem d hx))]
    rw [digitChar_toNat d hd]

theorem followOk_cases (rest : List Char) (h : followOk rest = true) :
    rest = [] ∨ ∃ c r, rest = c :: r ∧ (c = ',' ∨ c = ']' ∨ c = '}') := by
  cases rest with
  | nil => exact Or.inl rfl
  | cons c r =>
    right
    refine ⟨c, r, rfl, ?_⟩
    simp only [followOk, Bool.or_eq_true, beq_iff_eq] at h
    tauto

theorem followOk_head_not_dig (rest : List Char) (h : followOk rest = true) :
    ∀ c r, rest = c :: r → isDig c = false := by
  intro c r hr
  rcases followOk_cases rest h with h0 | ⟨c2, r2, he, hc⟩
  · rw [h0] at hr; cases hr
  · rw [he] at hr
    injection hr with h1 h2
    subst h1
    rcases hc with rfl | rfl | rfl <;> decide

theorem expTail_print (b : Bool) (ds : List Nat) (rest orig : List Char)
    (hds : digitsOk ds = true)
    (hfo : followOk rest = true) :
    numExpTail ((if b then '-' else '+') :: ds.map digitChar ++ rest)
      orig = (some (b, ds), rest) := by
  obtain ⟨d0, ds', rfl⟩ : ∃ d0 ds', ds = d0 :: ds' := by
    cases ds with
    | nil => simp [digitsOk] at hds
    | cons a l => exact ⟨a, l, rfl⟩
  simp only [digitsOk, Bool.and_eq_true, List.all_eq_true] at hds
  have hd0 : d0 < 10 := by
    have := hds.2 d0 (List.mem_cons_self d0 ds')
    simpa using this
  cases b with
  | false =>
    show numExpTail
      ('+' :: digitChar d0 :: (List.map digitChar ds' ++ rest)) orig = _
    simp only [numExpTail]
    rw [digitChar_isDig d0 hd0]
    simp only [if_true]
    rw [parseDigits_print ds' rest
      (fun x hx => by have := hds.2 x (List.mem_cons_of_mem d0 hx); simpa using this)
      (followOk_head_not_dig rest hfo)]
    rw [digitChar_toNat d0 hd0]
  | true =>
    show numExpTail
      ('-' :: digitChar d0 :: (List.map digitChar ds' ++ rest)) orig = _
    simp only [numExpTail]
    rw [digitChar_isDig d0 hd0]
    simp only [if_true]
    rw [parseDigits_print ds' rest
      (fun x hx => by have := hds.2 x (List.mem_cons_of_mem d0 hx); simpa using this)
      (followOk_head_not_dig rest hfo)]
    rw [digitChar_toNat d0 hd0]

theorem fracScan_print (ds : List Nat) (t : List Char)
    (hds : digitsOk ds = true)
    (ht : ∀ c r, t = c :: r → isDig c = false) :
    fracScan (('.' :: ds.map digitChar) ++ t) = (some ds, t) := by
  obtain ⟨d0, ds', rfl⟩ : ∃ d0 ds', ds = d0 :: ds' := by
    cases ds with
    | nil => simp [digitsOk] at hds
    | cons a l => exact ⟨a, l, rfl⟩
  simp only [digitsOk, Bool.and_eq_true, List.all_eq_true] at hds
  have hd0 : d0 < 10 := by
    have := hds.2 d0 (List.mem_cons_self d0 ds')
    simpa using this
  show fracScan ('.' :: digitChar d0 :: (List.map digitChar ds' ++ t)) = _
  simp only [fracScan]
  rw [digitChar_isDig d0 hd0]
  simp only [if_true]
  rw [parseDigits_print ds' t
    (fun x hx => by have := hds.2 x (List.mem_cons_of_mem d0 hx); simpa using this)
    ht]
  rw [digitChar_toNat d0 hd0]

theorem exScan_print (b : Bool) (ds : List Nat) (rest : List Char)
    (hds : digitsOk ds = true) (hfo : followOk rest = true) :
    exScan (('e' :: (if b then '-' else '+') :: ds.map digitChar) ++ rest) =
      (some (b, ds), rest) := by
  show exScan ('e' :: ((if b then '-' else '+') :: ds.map digitChar ++ rest)) = _
  simp only [exScan]
  exact expTail_print b ds rest _ hds hfo

theorem fracScan_none_shape (t : List Char)
    (h : t = [] ∨ ∃ c r, t = c :: r ∧ c ≠ '.') :
    fracScan t = (none, t) := by
  rcases h with rfl | ⟨c, r, rfl, hc⟩
  · rfl
  · rw [fracScan.eq_def]
    split
    · rename_i d rr heq
      injection heq with h1 _
      exact absurd h1 hc
    · rfl

theorem exScan_none_shape (t : List Char)
    (h : t = [] ∨ ∃ c r, t = c :: r ∧ c ≠ 'e' ∧ c ≠ 'E') :
    exScan t = (none, t) := by
  rcases h with rfl | ⟨c, r, rfl, hc1, hc2⟩
  · rfl
  · rw [exScan.eq_def]
    split
    · rename_i rr heq
      injection heq with h1 _
      exact absurd h1 hc1
    · rename_i rr heq
      injection heq with h1 _
      exact absurd h1 hc2
    · rfl

theorem exScan_followOk (rest : List Char) (hfo : followOk rest = true) :
    exScan rest = (none, rest) := by
  apply exScan_none_shape
  rcases followOk_cases rest hfo with rfl | ⟨c, r, rfl, hc⟩
  · exact Or.inl rfl
  · refine Or.inr ⟨c, r, rfl, ?_, ?_⟩ <;> rcases hc with rfl | rfl | rfl <;> decide

theorem fracScan_followOk (rest : List Char) (hfo : followOk rest = true) :
    fracScan rest = (none, rest) := by
  apply fracScan_none_shape
  rcases followOk_cases rest hfo with rfl | ⟨c, r, rfl, hc⟩
  · exact Or.inl rfl
  · refine Or.inr ⟨c, r, rfl, ?_⟩
    rcases hc with rfl | rfl | rfl <;> decide

theorem numTail_none_none (neg : Bool) (ip : List Nat) (rest : List Char)
    (hfo : followOk rest = true) :
    numTail neg ip rest = (.num neg ip none none, rest) := by
  simp [numTail, fracScan_followOk rest hfo, exScan_followOk rest hfo]

theorem numTail_none_some (neg : Bool) (ip : List Nat) (b : Bool)
    (ds : List Nat) (rest : List Char)
    (hds : digitsOk ds = true) (hfo : followOk rest = true) :
    numTail neg ip (('e' :: (if b then '-' else '+') :: ds.map digitChar) ++ rest)
      = (.num neg ip none (some (b, ds)), rest) := by
  have h1 : fracScan ('e' :: (if b then '-' else '+') ::
      (ds.map digitChar ++ rest)) = (none, 'e' :: (if b then '-' else '+') ::
      (ds.map digitChar ++ rest)) :=
    fracScan_none_shape _ (Or.inr ⟨'e', _, rfl, by decide⟩)
  have h2 : exScan ('e' :: (if b then '-' else '+') ::
      (ds.map digitChar ++ rest)) = (some (b, ds), rest) := by
    simpa using exScan_print b ds rest hds hfo
  simp [numTail, h1, h2]

theorem numTail_some_none (neg : Bool) (ip : List Nat) (ds : List Nat)
    (rest : List Char) (hds : digitsOk ds = true)
    (hfo : followOk rest = true) :
    numTail neg ip (('.' :: ds.map digitChar) ++ rest) =
      (.num neg ip (some ds) none, rest) := by
  have h1 : fracScan ('.' :: (ds.map digitChar ++ rest)) = (some ds, rest) :=
    by simpa using fracScan_print ds rest hds (followOk_head_not_dig rest hfo)
  simp [numTail, h1, exScan_followOk rest hfo]

theorem numTail_some_some (neg : Bool) (ip : List Nat) (ds : List Nat)
    (b : Bool) (ds2 : List Nat) (rest : List Char)
    (hds : digitsOk ds = true) (hds2 : digitsOk ds2 = true)
    (hfo : followOk rest = true) :
    numTail neg ip (('.' :: ds.map digitChar) ++
      (('e' :: (if b then '-' else '+') :: ds2.map digitChar) ++ rest)) =
      (.num neg ip (some ds) (some (b, ds2)), rest) := by
  have h1 : fracScan ('.' :: (ds.map digitChar ++
      ('e' :: (if b then '-' else '+') :: (ds2.map digitChar ++ rest)))) =
      (some ds, 'e' :: (if b then '-' else '+') ::
        (ds2.map digitChar ++ rest)) := by
    simpa using fracScan_print ds
      (('e' :: (if b then '-' else '+') :: ds2.map digitChar) ++ rest) hds
      (by intro c r h; injection h with h1 _; rw [← h1]; decide)
  have h2 : exScan ('e' :: (if b then '-' else '+') ::
      (ds2.map digitChar ++ rest)) = (some (b, ds2), rest) := by
    simpa using exScan_print b ds2 rest hds2 hfo
  simp [numTail, h1, h2]

theorem parseNum_pos (c : Char) (X : List Char) (h : (c == '-') = false) :
    parseNum (c :: X) = parseNumIp false (c :: X) := by
  unfold parseNum
  split
  · rename_i heq
    injection heq with h1 _
    rw [h1] at h
    simp at h
  · rfl

theorem parseNum_neg (X : List Char) :
    parseNum ('-' :: X) = parseNumIp true X := rfl

theorem parseNumIp_print (neg : Bool) (d0 : Nat) (ds : List Nat)
    (F : List Char) (v : Json × List Char)
    (hd0 : d0 < 10) (hds : ∀ x ∈ ds, x < 10)
    (hcanon : d0 = 0 → ds = [])
    (hF : ∀ c r, F = c :: r → isDig c = false)
    (hnt : numTail neg (d0 :: ds) F = v) :
    parseNumIp neg (digitChar d0 :: (List.map digitChar ds ++ F)) = some v := by
  by_cases h0 : d0 = 0
  · subst h0
    rw [hcanon rfl] at hnt ⊢
    show parseNumIp neg ('0' :: F) = _
    simp only [parseNumIp]
    rw [show numTail neg [0] F = v from hnt]
  · have hne : (digitChar d0 == '0') = false := by
      interval_cases d0
      · exact absurd rfl h0
      all_goals decide
    have hguard : (isDig (digitChar d0) && digitChar d0 != '0') = true := by
      rw [digitChar_isDig d0 hd0]
      simp only [Bool.true_and, bne_iff_ne, ne_eq]
      intro h
      rw [h] at hne
      simp at hne
    unfold parseNumIp
    split
    · rename_i heq
      injection heq with h1 _
      rw [h1] at hne
      simp at hne
    · rename_i c2 r2 heq
      injection heq with h1 h2
      subst h1
      subst h2
      rw [hguard]
      simp only [if_true]
      rw [parseDigits_print ds F (fun x hx => hds x hx) hF]
      rw [digitChar_toNat d0 hd0, hnt]
    · rename_i heq
      cases heq

theorem parseNum_print (neg : Bool) (ip : List Nat) (frac : Option (List Nat))
    (ex : Option (Bool × List Nat)) (rest : List Char)
    (hwf : wfJson (.num neg ip frac ex) = true)
    (hfo : followOk rest = true) :
    parseNum (printNum neg ip frac ex ++ rest) =
      some (.num neg ip frac ex, rest) := by
  simp only [wfJson, Bool.and_eq_true] at hwf
  obtain ⟨⟨⟨hip, hcanon⟩, hfr⟩, hexo⟩ := hwf
  obtain ⟨d0, ds, rfl⟩ : ∃ d0 ds, ip = d0 :: ds := by
    cases ip with
    | nil => simp [digitsOk] at hip
    | cons a l => exact ⟨a, l, rfl⟩
  simp only [digitsOk, Bool.and_eq_true, List.all_eq_true] at hip
  have hd0 : d0 < 10 := by
    have := hip.2 d0 (List.mem_cons_self d0 ds)
    simpa using this
  have hds' : ∀ x ∈ ds, x < 10 := by
    intro x hx
    have := hip.2 x (List.mem_cons_of_mem d0 hx)
    simpa using this
  have hcanon' : d0 = 0 → ds = [] := by
    intro h0
    subst h0
    rcases ds with _ | ⟨a, l⟩
    · rfl
    · simp at hcanon
  have hsign : ∀ (X : List Char),
      parseNum ((if neg then ['-'] else []) ++ digitChar d0 :: X) =
        parseNumIp neg (digitChar d0 :: X) := by
    intro X
    cases neg with
    | true => simp only [if_true, List.cons_append, List.nil_append, parseNum_neg]
    | false =>
      simp only [Bool.false_eq_true, if_false, List.nil_append]
      exact parseNum_pos (digitChar d0) X (by interval_cases d0 <;> decide)
  cases frac with
  | none =>
    cases ex with
    | none =>
      have hnt := numTail_none_none neg (d0 :: ds) rest hfo
      have h := parseNumIp_print neg d0 ds rest _ hd0 hds' hcanon'
        (followOk_head_not_dig rest hfo) hnt
      calc parseNum (printNum neg (d0 :: ds) none none ++ rest) =
          parseNum ((if neg then ['-'] else []) ++ digitChar d0 ::
            (List.map digitChar ds ++ rest)) := by
            simp [printNum, List.append_assoc]
        _ = _ := by rw [hsign]; exact h
    | some bds =>
      obtain ⟨b, ds2⟩ := bds
      have hds2 : digitsOk ds2 = true := by simpa using hexo
      have hnt := numTail_none_some neg (d0 :: ds) b ds2 rest hds2 hfo
      have h := parseNumIp_print neg d0 ds _ _ hd0 hds' hcanon'
        (by intro c r hcr; injection hcr with h1 _; rw [← h1]; decide) hnt
      calc parseNum (printNum neg (d0 :: ds) none (some (b, ds2)) ++ rest) =
          parseNum ((if neg then ['-'] else []) ++ digitChar d0 ::
            (List.map digitChar ds ++
             (('e' :: (if b then '-' else '+') :: ds2.map digitChar) ++ rest)))
            := by simp [printNum, List.append_assoc]
        _ = _ := by rw [hsign]; exact h
  | some ds1 =>
    have hds1 : digitsOk ds1 = true := by simpa using hfr
    cases ex with
    | none =>
      have hnt := numTail_some_none neg (d0 :: ds) ds1 rest hds1 hfo
      have h := parseNumIp_print neg d0 ds _ _ hd0 hds' hcanon'
        (by intro c r hcr; injection hcr with h1 _; rw [← h1]; decide) hnt
      calc parseNum (printNum neg (d0 :: ds) (some ds1) none ++ rest) =
          parseNum ((if neg then ['-'] else []) ++ digitChar d0 ::
            (List.map digitChar ds ++ (('.' :: ds1.map digitChar) ++ rest)))
            := by simp [printNum, List.append_assoc]
        _ = _ := by rw [hsign]; exact h
    | some bds =>
      obtain ⟨b, ds2⟩ := bds
      have hds2 : digitsOk ds2 = true := by simpa using hexo
      have hnt := numTail_some_some neg (d0 :: ds) ds1 b ds2 rest hds1 hds2 hfo
      have h := parseNumIp_print neg d0 ds _ _ hd0 hds' hcanon'
        (by intro c r hcr; injection hcr with h1 _; rw [← h1]; decide) hnt
      calc parseNum (printNum neg (d0 :: ds) (some ds1) (some (b, ds2)) ++ rest)
          = parseNum ((if neg then ['-'] else []) ++ digitChar d0 ::
            (List.map digitChar ds ++ (('.' :: ds1.map digitChar) ++
             (('e' :: (if b then '-' else '+') :: ds2.map digitChar) ++ rest))))
            := by simp [printNum, List.append_assoc]
        _ = _ := by rw [hsign]; exact h

theorem pV_null (f : Nat) (r : List Char) :
    pV (f + 1) ('n' :: 'u' :: 'l' :: 'l' :: r) = some (.null, r) := rfl

theorem pV_true (f : Nat) (r : List Char) :
    pV (f + 1) ('t' :: 'r' :: 'u' :: 'e' :: r) = some (.jbool true, r) := rfl

theorem pV_false (f : Nat) (r : List Char) :
    pV (f + 1) ('f' :: 'a' :: 'l' :: 's' :: 'e' :: r) =
      some (.jbool false, r) := rfl

theorem pV_str (f : Nat) (r : List Char) :
    pV (f + 1) ('"' :: r) =
      (parseStrBody r).map (fun p => (.str p.1, p.2)) := rfl

theorem pV_arr_empty (f : Nat) (r : List Char) :
    pV (f + 1) ('[' :: ']' :: r) = some (.arr [], r) := rfl

theorem pV_obj_empty (f : Nat) (r : List Char) :
    pV (f + 1) ('{' :: '}' :: r) = some (.obj [], r) := rfl

theorem pV_obj_go (f : Nat) (t : List Char) :
    pV (f + 1) ('{' :: '"' :: t) = pPairs f ('"' :: t) [] := rfl

theorem pElems_succ (f : Nat) (s : List Char) (acc : List Json) :
    pElems (f + 1) s acc =
      match pV f s with
      | none => none
      | some (v, r) =>
        match skipWs r with
        | ',' :: r2 => pElems f r2 (v :: acc)
        | ']' :: r2 => some (.arr (v :: acc).reverse, r2)
        | _ => none := rfl

theorem pPairs_succ (f : Nat) (s : List Char)
    (acc : List (List Char × Json)) :
    pPairs (f + 1) s acc =
      match skipWs s with
      | '"' :: r =>
        match parseStrBody r with
        | none => none
        | some (k, r1) =>
          match skipWs r1 with
          | ':' :: r2 =>
            match pV f r2 with
            | none => none
            | some (v, r3) =>
              match skipWs r3 with
              | ',' :: r4 => pPairs f r4 (upsertKV acc k v)
              | '}' :: r4 => some (.obj (upsertKV acc k v), r4)
              | _ => none
          | _ => none
      | _ => none := rfl

theorem pV_arr_go (f : Nat) (c : Char) (t : List Char)
    (hws : jsonWsChar c = false) (hne : c ≠ ']') :
    pV (f + 1) ('[' :: c :: t) = pElems f (c :: t) [] := by
  have h1 : pV (f + 1) ('[' :: c :: t) =
      match skipWs (c :: t) with
      | ']' :: r2 => some (.arr [], r2)
      | r2 => pElems f r2 [] := rfl
  rw [h1, skipWs_cons_not c t hws]
  split
  · rename_i heq
    injection heq with h2 _
    exact absurd h2 hne
  · rfl

theorem pV_default (f : Nat) (c : Char) (t : List Char)
    (hc : (jsonWsChar c || c == 'n' || c == 't' || c == 'f' || c == '"' ||
           c == '[' || c == '{') = false) :
    pV (f + 1) (c :: t) = parseNum (c :: t) := by
  simp only [Bool.or_eq_false_iff, beq_eq_false_iff_ne, ne_eq] at hc
  obtain ⟨⟨⟨⟨⟨⟨hws, hn⟩, ht⟩, hf⟩, hq⟩, hbr⟩, hbc⟩ := hc
  have h1 : pV (f + 1) (c :: t) =
      match skipWs (c :: t) with
      | 'n' :: 'u' :: 'l' :: 'l' :: r => some (.null, r)
      | 't' :: 'r' :: 'u' :: 'e' :: r => some (.jbool true, r)
      | 'f' :: 'a' :: 'l' :: 's' :: 'e' :: r => some (.jbool false, r)
      | '"' :: r => (parseStrBody r).map (fun p => (.str p.1, p.2))
      | '[' :: r =>
        (match skipWs r with
         | ']' :: r2 => some (.arr [], r2)
         | r2 => pElems f r2 [])
      | '{' :: r =>
        (match skipWs r with
         | '}' :: r2 => some (.obj [], r2)
         | r2 => pPairs f r2 [])
      | s2 => parseNum s2 := rfl
  rw [h1, skipWs_cons_not c t hws]
  split
  all_goals try (exfalso; simp_all; done)
  rfl

theorem upsertKV_append (acc : List (List Char × Json)) (k : List Char)
    (v : Json) (h : ∀ p ∈ acc, (p.1 == k) = false) :
    upsertKV acc k v = acc ++ [(k, v)] := by
  induction acc with
  | nil => rfl
  | cons p r ih =>
    obtain ⟨k1, v1⟩ := p
    have hk1 : (k1 == k) = false := h (k1, v1) (List.mem_cons_self _ _)
    simp only [upsertKV, hk1, Bool.false_eq_true, if_false, List.cons_append]
    rw [ih (fun q hq => h q (List.mem_cons_of_mem _ hq))]

theorem Jfuel_pos (v : Json) : 1 ≤ Jfuel v := by
  cases v <;> simp [Jfuel]

theorem printVal_head (v : Json) (hwf : wfJson v = true) :
    ∃ c t, printVal v = c :: t ∧
      (jsonWsChar c || c == ']' || c == '}') = false := by
  cases v with
  | null => exact ⟨'n', _, rfl, by decide⟩
  | jbool b =>
    cases b with
    | false => exact ⟨'f', _, rfl, by decide⟩
    | true => exact ⟨'t', _, rfl, by decide⟩
  | str s => exact ⟨'"', _, rfl, by decide⟩
  | arr xs => exact ⟨'[', _, rfl, by decide⟩
  | obj kvs => exact ⟨'{', _, rfl, by decide⟩
  | num neg ip frac ex =>
    simp only [wfJson, Bool.and_eq_true] at hwf
    obtain ⟨⟨⟨hip, _⟩, _⟩, _⟩ := hwf
    obtain ⟨d0, ds, rfl⟩ : ∃ d0 ds, ip = d0 :: ds := by
      cases ip with
      | nil => simp [digitsOk] at hip
      | cons a l => exact ⟨a, l, rfl⟩
    simp only [digitsOk, Bool.and_eq_true, List.all_eq_true] at hip
    have hd0 : d0 < 10 := by
      have := hip.2 d0 (List.mem_cons_self d0 ds)
      simpa using this
    obtain ⟨t, ht⟩ : ∃ t, printVal (.num neg (d0 :: ds) frac ex) =
        (if neg then '-' else digitChar d0) :: t := by
      cases neg with
      | true => exact ⟨_, rfl⟩
      | false => exact ⟨_, rfl⟩
    refine ⟨_, t, ht, ?_⟩
    cases neg with
    | true => simp only [if_true]; decide
    | false =>
      simp only [Bool.false_eq_true, if_false]
      interval_cases d0 <;> decide

theorem pPairs_quote (f : Nat) (r : List Char)
    (acc : List (List Char × Json)) :
    pPairs (f + 1) ('"' :: r) acc =
      match parseStrBody r with
      | none => none
      | some (k, r1) =>
        match skipWs r1 with
        | ':' :: r2 =>
          match pV f r2 with
          | none => none
          | some (v, r3) =>
            match skipWs r3 with
            | ',' :: r4 => pPairs f r4 (upsertKV acc k v)
            | '}' :: r4 => some (.obj (upsertKV acc k v), r4)
            | _ => none
        | _ => none := rfl

theorem beq_comm_chars (a b : List Char) : (a == b) = (b == a) := by
  by_cases h : a = b
  · subst h
    simp
  · rw [beq_eq_false_iff_ne.2 h, beq_eq_false_iff_ne.2 (Ne.symm h)]

theorem print_parse_aux : ∀ f : Nat,
    (∀ v rest, wfJson v = true → Jfuel v ≤ f → followOk rest = true →
      pV f (printVal v ++ rest) = some (v, rest)) ∧
    (∀ x xs acc rest, wfJson x = true → wfList xs = true →
      1 + Jfuel x + JfuelL xs ≤ f → followOk rest = true →
      pElems f (printElems (x :: xs) ++ ']' :: rest) acc =
        some (.arr (acc.reverse ++ x :: xs), rest)) ∧
    (∀ k v kvs acc rest, wfJson v = true → wfPairs kvs = true →
      keysUnique ((k, v) :: kvs) = true →
      (∀ p ∈ acc, ∀ q ∈ (k, v) :: kvs, (p.1 == q.1) = false) →
      1 + Jfuel v + JfuelM kvs ≤ f → followOk rest = true →
      pPairs f (printMembers ((k, v) :: kvs) ++ '}' :: rest) acc =
        some (.obj (acc ++ (k, v) :: kvs), rest)) := by
  intro f
  induction f with
  | zero =>
    refine ⟨?_, ?_, ?_⟩
    · intro v rest _ hfu _
      have := Jfuel_pos v
      omega
    · intro x xs acc rest _ _ hfu _
      omega
    · intro k v kvs acc rest _ _ _ _ hfu _
      omega
  | succ f ih =>
    obtain ⟨ihV, ihE, ihP⟩ := ih
    refine ⟨?_, ?_, ?_⟩
    · intro v rest hwf hfu hfo
      cases v with
      | null => exact pV_null f rest
      | jbool b =>
        cases b with
        | true => exact pV_true f rest
        | false => exact pV_false f rest
      | str s =>
        calc pV (f + 1) (printVal (.str s) ++ rest)
            = (parseStrBody (s.foldr (fun c a => escChar c ++ a) ['"'] ++
                rest)).map (fun p => (Json.str p.1, p.2)) := rfl
          _ = some (.str s, rest) := by
              rw [foldr_esc_append]
              simp only [List.singleton_append]
              rw [parseStrBody_print]
              rfl
      | num neg ip frac ex =>
        have hwf2 := hwf
        simp only [wfJson, Bool.and_eq_true] at hwf2
        obtain ⟨⟨⟨hip, _⟩, _⟩, _⟩ := hwf2
        obtain ⟨d0, ds, rfl⟩ : ∃ d0 ds, ip = d0 :: ds := by
          cases ip with
          | nil => simp [digitsOk] at hip
          | cons a l => exact ⟨a, l, rfl⟩
        have hd0 : d0 < 10 := by
          simp only [digitsOk, Bool.and_eq_true, List.all_eq_true] at hip
          have := hip.2 d0 (List.mem_cons_self d0 ds)
          simpa using this
        cases neg with
        | true =>
          obtain ⟨T, hT⟩ : ∃ T,
              printVal (.num true (d0 :: ds) frac ex) ++ rest = '-' :: T :=
            ⟨_, rfl⟩
          rw [hT, pV_default f '-' T (by decide), ← hT]
          exact parseNum_print true (d0 :: ds) frac ex rest hwf hfo
        | false =>
          obtain ⟨T, hT⟩ : ∃ T,
              printVal (.num false (d0 :: ds) frac ex) ++ rest =
                digitChar d0 :: T := ⟨_, rfl⟩
          rw [hT, pV_default f (digitChar d0) T
            (by interval_cases d0 <;> decide), ← hT]
          exact parseNum_print false (d0 :: ds) frac ex rest hwf hfo
      | arr xs =>
        cases xs with
        | nil => exact pV_arr_empty f rest
        | cons x xs2 =>
          have hw2 := hwf
          simp only [wfJson, wfList, Bool.and_eq_true] at hw2
          obtain ⟨hwx, hwxs⟩ := hw2
          have hfu2 : 1 + Jfuel x + JfuelL xs2 ≤ f := by
            simp only [Jfuel, JfuelL] at hfu
            omega
          obtain ⟨c, t, hct, hc⟩ := printVal_head x hwx
          simp only [Bool.or_eq_false_iff, beq_eq_false_iff_ne, ne_eq] at hc
          have hshape : printVal (.arr (x :: xs2)) ++ rest =
              '[' :: (printElems (x :: xs2) ++ ']' :: rest) := by
            simp [printVal, List.append_assoc]
          obtain ⟨t2, ht2⟩ :
              ∃ t2, printElems (x :: xs2) ++ ']' :: rest = c :: t2 := by
            cases xs2 with
            | nil =>
              refine ⟨t ++ ']' :: rest, ?_⟩
              simp only [printElems, hct, List.cons_append]
            | cons y ys =>
              refine ⟨t ++ ',' :: ' ' :: (printElems (y :: ys) ++
                ']' :: rest), ?_⟩
              simp only [printElems, hct, List.cons_append,
                List.append_assoc]
          rw [hshape, ht2, pV_arr_go f c t2 hc.1.1 hc.1.2, ← ht2]
          have := ihE x xs2 [] rest hwx hwxs hfu2 hfo
          simpa using this
      | obj kvs =>
        cases kvs with
        | nil => exact pV_obj_empty f rest
        | cons kv kvs2 =>
          obtain ⟨k, v⟩ := kv
          have hw2 := hwf
          simp only [wfJson, wfPairs, Bool.and_eq_true] at hw2
          obtain ⟨⟨hwv, hwp⟩, hku⟩ := hw2
          have hfu2 : 1 + Jfuel v + JfuelM kvs2 ≤ f := by
            simp only [Jfuel, JfuelM] at hfu
            omega
          have h1 : printVal (.obj ((k, v) :: kvs2)) ++ rest =
              '{' :: (printMembers ((k, v) :: kvs2) ++ '}' :: rest) := by
            simp [printVal, List.append_assoc]
          obtain ⟨T, hT⟩ :
              ∃ T, printMembers ((k, v) :: kvs2) ++ '}' :: rest = '"' :: T := by
            cases kvs2 with
            | nil => exact ⟨_, rfl⟩
            | cons m ms => exact ⟨_, rfl⟩
          rw [h1, hT, pV_obj_go, ← hT]
          have := ihP k v kvs2 [] rest hwv hwp
            (by simp only [keysUnique]; exact hku)
            (by intro p hp q hq; exact absurd hp (List.not_mem_nil p))
            hfu2 hfo
          simpa using this
    · intro x xs acc rest hwx hwxs hfu hfo
      cases xs with
      | nil =>
        have hv := ihV x (']' :: rest) hwx
          (by simp only [JfuelL] at hfu; omega) rfl
        rw [pElems_succ,
          show printElems [x] ++ ']' :: rest = printVal x ++ ']' :: rest
            from rfl,
          hv]
        show some (Json.arr (x :: acc).reverse, rest) =
          some (.arr (acc.reverse ++ [x]), rest)
        simp
      | cons y ys =>
        simp only [wfList, Bool.and_eq_true] at hwxs
        obtain ⟨hwy, hwys⟩ := hwxs
        have hfu2 : 1 + Jfuel y + JfuelL ys ≤ f := by
          simp only [JfuelL] at hfu
          omega
        have hv := ihV x
          (',' :: ' ' :: (printElems (y :: ys) ++ ']' :: rest)) hwx
          (by simp only [JfuelL] at hfu; omega) rfl
        have hs : printElems (x :: y :: ys) ++ ']' :: rest =
            printVal x ++
              (',' :: ' ' :: (printElems (y :: ys) ++ ']' :: rest)) := by
          simp [printElems, List.append_assoc]
        rw [pElems_succ, hs, hv]
        show pElems f (' ' :: (printElems (y :: ys) ++ ']' :: rest))
          (x :: acc) = _
        rw [pElems_space]
        rw [ihE y ys (x :: acc) rest hwy hwys hfu2 hfo]
        simp
    · intro k v kvs acc rest hwv hwp hku hdisj hfu hfo
      cases kvs with
      | nil =>
        have hv := ihV v ('}' :: rest) hwv
          (by simp only [JfuelM] at hfu; omega) rfl
        have hs : printMembers [(k, v)] ++ '}' :: rest =
            '"' :: k.foldr (fun c a => escChar c ++ a)
              ('"' :: ':' :: ' ' :: (printVal v ++ '}' :: rest)) := by
          show (printStr k ++ ':' :: ' ' :: printVal v) ++ '}' :: rest = _
          simp [printStr, List.append_assoc, foldr_esc_append]
        rw [hs, pPairs_quote, parseStrBody_print]
        show (match pV f (' ' :: (printVal v ++ '}' :: rest)) with
          | none => none
          | some (v2, r3) =>
            match skipWs r3 with
            | ',' :: r4 => pPairs f r4 (upsertKV acc k v2)
            | '}' :: r4 => some (Json.obj (upsertKV acc k v2), r4)
            | _ => none) = _
        rw [pV_space, hv]
        show some (Json.obj (upsertKV acc k v), rest) = _
        rw [upsertKV_append acc k v
          (fun p hp => hdisj p hp (k, v) (List.mem_cons_self _ _))]
      | cons m ms =>
        obtain ⟨k2, v2⟩ := m
        simp only [wfPairs, Bool.and_eq_true] at hwp
        obtain ⟨hwv2, hwms⟩ := hwp
        rw [show keysUnique ((k, v) :: (k2, v2) :: ms) =
          (!((k2, v2) :: ms).any (fun p => p.1 == k) &&
            keysUnique ((k2, v2) :: ms)) from rfl, Bool.and_eq_true] at hku
        obtain ⟨hk1, hku2⟩ := hku
        have hfu2 : 1 + Jfuel v2 + JfuelM ms ≤ f := by
          simp only [JfuelM] at hfu
          omega
        have hv := ihV v
          (',' :: ' ' :: (printMembers ((k2, v2) :: ms) ++ '}' :: rest)) hwv
          (by simp only [JfuelM] at hfu; omega) rfl
        have hs : printMembers ((k, v) :: (k2, v2) :: ms) ++ '}' :: rest =
            '"' :: k.foldr (fun c a => escChar c ++ a)
              ('"' :: ':' :: ' ' :: (printVal v ++ ',' :: ' ' ::
                (printMembers ((k2, v2) :: ms) ++ '}' :: rest))) := by
          show (printStr k ++ ':' :: ' ' :: printVal v ++ ',' :: ' ' ::
            printMembers ((k2, v2) :: ms)) ++ '}' :: rest = _
          simp [printStr, List.append_assoc, foldr_esc_append]
        rw [hs, pPairs_quote, parseStrBody_print]
        show (match pV f (' ' :: (printVal v ++ ',' :: ' ' ::
            (printMembers ((k2, v2) :: ms) ++ '}' :: rest))) with
          | none => none
          | some (v3, r3) =>
            match skipWs r3 with
            | ',' :: r4 => pPairs f r4 (upsertKV acc k v3)
            | '}' :: r4 => some (Json.obj (upsertKV acc k v3), r4)
            | _ => none) = _
        rw [pV_space, hv]
        show pPairs f
          (' ' :: (printMembers ((k2, v2) :: ms) ++ '}' :: rest))
          (upsertKV acc k v) = _
        rw [pPairs_space, upsertKV_append acc k v
          (fun p hp => hdisj p hp (k, v) (List.mem_cons_self _ _))]
        have hdisj2 : ∀ p ∈ acc ++ [(k, v)], ∀ q ∈ (k2, v2) :: ms,
            (p.1 == q.1) = false := by
          intro p hp q hq
          rcases List.mem_append.1 hp with hp1 | hp2
          · exact hdisj p hp1 q (List.mem_cons_of_mem _ hq)
          · have hpk : p = (k, v) := by simpa using hp2
            subst hpk
            have : (q.1 == k) = false := by
              simp only [Bool.not_eq_true', List.any_eq_false] at hk1
              simpa using hk1 q hq
            rw [beq_comm_chars]
            exact this
        rw [ihP k2 v2 ms (acc ++ [(k, v)]) rest hwv2 hwms hku2 hdisj2
          hfu2 hfo]
        simp

theorem foldr_esc_len (s : List Char) (i : List Char) (h : 1 ≤ i.length) :
    1 ≤ (s.foldr (fun c a => escChar c ++ a) i).length := by
  induction s with
  | nil => exact h
  | cons c r ih =>
    simp only [List.foldr_cons, List.length_append]
    omega

theorem Jfuel_bound : ∀ n : Nat,
    (∀ v, Jfuel v ≤ n → wfJson v = true →
      Jfuel v ≤ 2 * (printVal v).length) ∧
    (∀ xs, JfuelL xs ≤ n → wfList xs = true →
      JfuelL xs ≤ 2 * (printElems xs).length + 3) ∧
    (∀ kvs, JfuelM kvs ≤ n → wfPairs kvs = true →
      JfuelM kvs ≤ 2 * (printMembers kvs).length + 3) := by
  intro n
  induction n with
  | zero =>
    refine ⟨?_, ?_, ?_⟩
    · intro v hv _
      have := Jfuel_pos v
      omega
    · intro xs hxs _
      cases xs with
      | nil => simp [JfuelL]
      | cons x r =>
        have := Jfuel_pos x
        simp only [JfuelL] at hxs
        omega
    · intro kvs hkvs _
      cases kvs with
      | nil => simp [JfuelM]
      | cons p r =>
        obtain ⟨k, v⟩ := p
        have := Jfuel_pos v
        simp only [JfuelM] at hkvs
        omega
  | succ n ih =>
    obtain ⟨ihV, ihE, ihM⟩ := ih
    refine ⟨?_, ?_, ?_⟩
    · intro v hv hwf
      cases v with
      | null => simp [Jfuel, printVal]
      | jbool b => cases b <;> simp [Jfuel, printVal]
      | str s =>
        have := foldr_esc_len s ['"'] (by simp)
        simp only [Jfuel, printVal, printStr, List.length_cons]
        omega
      | num neg ip frac ex =>
        simp only [wfJson, Bool.and_eq_true] at hwf
        obtain ⟨⟨⟨hip, _⟩, _⟩, _⟩ := hwf
        obtain ⟨d0, ds, rfl⟩ : ∃ d0 ds, ip = d0 :: ds := by
          cases ip with
          | nil => simp [digitsOk] at hip
          | cons a l => exact ⟨a, l, rfl⟩
        simp only [Jfuel, printVal, printNum, List.length_append,
          List.length_map, List.length_cons]
        omega
      | arr xs =>
        simp only [Jfuel] at hv ⊢
        simp only [wfJson] at hwf
        have := ihE xs (by omega) hwf
        simp only [printVal, List.length_cons, List.length_append]
        omega
      | obj kvs =>
        simp only [Jfuel] at hv ⊢
        simp only [wfJson, Bool.and_eq_true] at hwf
        have := ihM kvs (by omega) hwf.1
        simp only [printVal, List.length_cons, List.length_append]
        omega
    · intro xs hxs hwf
      cases xs with
      | nil => simp [JfuelL]
      | cons x r =>
        simp only [JfuelL] at hxs ⊢
        simp only [wfList, Bool.and_eq_true] at hwf
        have h1 := ihV x (by omega) hwf.1
        cases r with
        | nil =>
          simp only [printElems, JfuelL]
          omega
        | cons y ys =>
          have h2 := ihE (y :: ys) (by omega) hwf.2
          simp only [printElems, List.length_append, List.length_cons] at h2 ⊢
          omega
    · intro kvs hkvs hwf
      cases kvs with
      | nil => simp [JfuelM]
      | cons p r =>
        obtain ⟨k, v⟩ := p
        simp only [JfuelM] at hkvs ⊢
        simp only [wfPairs, Bool.and_eq_true] at hwf
        have h1 := ihV v (by omega) hwf.1
        cases r with
        | nil =>
          simp only [printMembers, JfuelM, List.length_append,
            List.length_cons]
          omega
        | cons m ms =>
          have h2 := ihM (m :: ms) (by omega) hwf.2
          simp only [printMembers, List.length_append, List.length_cons]
            at h2 ⊢
          omega

theorem jsonLoads_print (v : Json) (hwf : wfJson v = true) :
    jsonLoads (printVal v) = some v := by
  have hb := (Jfuel_bound (Jfuel v)).1 v le_rfl hwf
  have h := (print_parse_aux (2 * (printVal v).length + 2)).1 v [] hwf
    (by omega) rfl
  rw [List.append_nil] at h
  unfold jsonLoads
  rw [h]
  rfl

theorem asciiLower_toNat (c : Char) (h1 : 65 ≤ c.toNat) (h2 : c.toNat ≤ 90) :
    (asciiLower c).toNat = c.toNat + 32 := by
  unfold asciiLower
  rw [if_pos (by simp only [Bool.and_eq_true, decide_eq_true_eq]; exact ⟨h1, h2⟩)]
  generalize c.toNat = m at h1 h2 ⊢
  interval_cases m <;> decide

theorem asciiLower_eq_self (c : Char)
    (h : ¬(65 ≤ c.toNat ∧ c.toNat ≤ 90)) : asciiLower c = c := by
  unfold asciiLower
  rw [if_neg (by simp only [Bool.and_eq_true, decide_eq_true_eq]; exact h)]

theorem asciiLower_idem (c : Char) :
    asciiLower (asciiLower c) = asciiLower c := by
  by_cases h : 65 ≤ c.toNat ∧ c.toNat ≤ 90
  · have ht := asciiLower_toNat c h.1 h.2
    apply asciiLower_eq_self
    omega
  · rw [asciiLower_eq_self c h, asciiLower_eq_self c h]

theorem asciiLower_eq_slash (c : Char) :
    (asciiLower c == '/') = (c == '/') := by
  by_cases h : 65 ≤ c.toNat ∧ c.toNat ≤ 90
  · have ht := asciiLower_toNat c h.1 h.2
    have h1 : (asciiLower c == '/') = false := by
      rw [beq_eq_false_iff_ne]
      intro he
      rw [he] at ht
      have h47 : ('/').toNat = 47 := rfl
      rw [h47] at ht
      omega
    have h2 : (c == '/') = false := by
      rw [beq_eq_false_iff_ne]
      intro he
      rw [he] at h
      exact absurd h.1 (by decide)
    rw [h1, h2]
  · rw [asciiLower_eq_self c h]

theorem pyLower_idem (l : List Char) : pyLower (pyLower l) = pyLower l := by
  simp [pyLower, List.map_map, Function.comp, asciiLower_idem]

theorem dropWhile_map_eq (f : Char → Char) (p q : Char → Bool)
    (l : List Char) (h : ∀ c, p (f c) = q c) :
    (l.map f).dropWhile p = (l.dropWhile q).map f := by
  induction l with
  | nil => rfl
  | cons c r ih =>
    simp only [List.map_cons, List.dropWhile_cons, h c]
    cases q c <;> simp [ih]

theorem pyLower_rstrip_slash (l : List Char) :
    pyLower (pyRStripWith (· == '/') l) =
      pyRStripWith (· == '/') (pyLower l) := by
  unfold pyLower pyRStripWith
  rw [List.map_reverse,
    ← dropWhile_map_eq asciiLower (· == '/') (· == '/') l.reverse
      asciiLower_eq_slash,
    List.map_reverse]

theorem pyRStrip_idem (p : Char → Bool) (l : List Char) :
    pyRStripWith p (pyRStripWith p l) = pyRStripWith p l := by
  unfold pyRStripWith
  rw [List.reverse_reverse, dropWhile_idem]

theorem normalizeUrl_idem_of_stripped (u : List Char)
    (h : pyStrip (normalizeUrl u) = normalizeUrl u) :
    normalizeUrl (normalizeUrl u) = normalizeUrl u := by
  conv_lhs => rw [normalizeUrl, h]
  show pyRStripWith (· == '/')
    (pyLower (pyRStripWith (· == '/') (pyLower (pyStrip u)))) = _
  rw [pyLower_rstrip_slash, pyRStrip_idem, pyLower_idem]
  rfl

theorem printVal_length_pos (v : Json) (hwf : wfJson v = true) :
    1 ≤ (printVal v).length := by
  have h1 := Jfuel_pos v
  have h2 := (Jfuel_bound (Jfuel v)).1 v le_rfl hwf
  omega

/-- C7: the claim fails as stated — the key derivation is not idempotent.
`rstrip("/")` can expose whitespace that the earlier `strip()` pass no
longer sees: for the URL `"a /"` normalization gives `"a "`, and
normalizing that again gives `"a"`, so the two keys differ. -/
theorem C7_counterexample :
    normalizeUrl (normalizeUrl "a /".data) ≠ normalizeUrl "a /".data ∧
    hashUrl (normalizeUrl "a /".data) ≠ hashUrl "a /".data := by
  constructor
  · decide
  · decide

/-- C7 (amended): the key is a deterministic digest of the normalized URL —
URLs with equal normal forms share one key, and normalization (hence the
key) is idempotent once the normalized form carries no outer whitespace;
and with both tiers reachable and a positive hot TTL, `save(url, R)`
followed by `get(url)` returns exactly R for every well-formed
JSON-serializable R. -/
theorem C7_amended (u u1 u2 url : List Char) (st : CacheState) (now : Int)
    (R : Json) (hidem : pyStrip (normalizeUrl u) = normalizeUrl u)
    (heq : normalizeUrl u1 = normalizeUrl u2)
    (hwf : wfJson R = true) (httl : 0 < st.ttl) :
    hashUrl (normalizeUrl u) = hashUrl u ∧
    hashUrl u1 = hashUrl u2 ∧
    (cacheGet envOk now (cacheSave envOk now st url R) url).1 = some R := by
  refine ⟨?_, ?_, ?_⟩
  · show (sha256Hex (utf8 (normalizeUrl (normalizeUrl u)))).take 16 = _
    rw [normalizeUrl_idem_of_stripped u hidem]
    rfl
  · show (sha256Hex (utf8 (normalizeUrl u1))).take 16 = _
    rw [heq]
    rfl
  · have hne : (printVal R).isEmpty = false := by
      have hlen := printVal_length_pos R hwf
      cases hp : printVal R with
      | nil => rw [hp] at hlen; simp at hlen
      | cons a l => rfl
    have hload := jsonLoads_print R hwf
    unfold cacheSave cacheGet hotGet
    simp [envOk, aGet_aUpsert_self, sub_self, httl, hne, hload]

/-- Closed instance of the amended C7 theorem. -/
theorem C7_amended_witness :
    pyStrip (normalizeUrl "x".data) = normalizeUrl "x".data ∧
    normalizeUrl "A".data = normalizeUrl "a".data ∧
    wfJson Json.null = true ∧ (0 : Int) < 1 ∧
    (hashUrl (normalizeUrl "x".data) = hashUrl "x".data ∧
     hashUrl "A".data = hashUrl "a".data ∧
     (cacheGet envOk 0 (cacheSave envOk 0 ⟨1, [], []⟩ "u".data Json.null)
        "u".data).1 = some Json.null) :=
  ⟨by decide, by decide, rfl, by decide,
    C7_amended "x".data "A".data "a".data "u".data ⟨1, [], []⟩ 0 Json.null
      (by decide) (by decide) rfl (by decide)⟩

theorem escChar_safe (c : Char) (h : safeChr c = true) : escChar c = [c] := by
  have h1 : (c == '"') = false := by
    rw [beq_eq_false_iff_ne]
    rintro rfl
    exact absurd h (by decide)
  have h2 : (c == '\\') = false := by
    rw [beq_eq_false_iff_ne]
    rintro rfl
    exact absurd h (by decide)
  have h3 : ¬ c.toNat < 32 := by
    intro hlt
    have hc := Char.ofNat_toNat c
    generalize hn : c.toNat = n at hlt hc
    rw [← hc] at h
    interval_cases n <;> exact absurd h (by decide)
  unfold escChar
  rw [if_neg (by simp [h1]), if_neg (by simp [h2]), if_neg h3]

theorem safeStr_foldr (s i : List Char) (h : safeStr s = true) :
    s.foldr (fun c a => escChar c ++ a) i = s ++ i := by
  induction s with
  | nil => rfl
  | cons c r ih =>
    simp only [safeStr, List.all_cons, Bool.and_eq_true] at h
    simp only [List.foldr_cons, escChar_safe c h.1, List.cons_append,
      List.nil_append]
    rw [ih (by simp [safeStr, h.2])]

theorem printStr_safe (s : List Char) (h : safeStr s = true) :
    printStr s = '"' :: (s ++ ['"']) := by
  unfold printStr
  rw [safeStr_foldr s ['"'] h]

theorem digitChar_safe (d : Nat) (h : d < 10) :
    safeChr (digitChar d) = true := by
  interval_cases d <;> decide

theorem scalar_print_tame (v : Json) (h : scalarOk v = true) :
    (printVal v).all tameChr = true := by
  cases v with
  | str s =>
    have hs : safeStr s = true := by simpa [scalarOk] using h
    rw [show printVal (.str s) = printStr s from rfl, printStr_safe s hs]
    simp only [List.all_cons, List.all_append, Bool.and_eq_true]
    refine ⟨by decide, ?_, by decide⟩
    simp only [safeStr, List.all_eq_true] at hs
    simp only [List.all_eq_true]
    intro c hc
    simp [tameChr, hs c hc]
  | num neg ip frac ex =>
    simp only [scalarOk, Bool.and_eq_true] at h
    obtain ⟨⟨⟨⟨hneg, hip⟩, _⟩, hfr⟩, hex⟩ := h
    have hneg' : neg = false := by simpa using hneg
    have hfr' : frac = none := by simpa [Option.isNone_iff_eq_none] using hfr
    have hex' : ex = none := by simpa [Option.isNone_iff_eq_none] using hex
    subst hneg'
    subst hfr'
    subst hex'
    show (printNum false ip none none).all tameChr = true
    have hshape : printNum false ip none none = ip.map digitChar := by
      simp [printNum]
    rw [hshape, List.all_eq_true]
    intro c hc
    obtain ⟨d, hd, rfl⟩ := List.mem_map.1 hc
    simp only [digitsOk, Bool.and_eq_true, List.all_eq_true] at hip
    have hd10 : d < 10 := by simpa using hip.2 d hd
    simp [tameChr, digitChar_safe d hd10]
  | null => exact absurd h (by decide)
  | jbool b => exact absurd h (by simp [scalarOk])
  | arr xs => exact absurd h (by simp [scalarOk])
  | obj kvs => exact absurd h (by simp [scalarOk])

theorem tame_not_special (c : Char) (h : tameChr c = true) :
    (c == '{') = false ∧ (c == '}') = false ∧ (c == '`') = false ∧
    (c == ',') = false := by
  refine ⟨?_, ?_, ?_, ?_⟩ <;>
    (rw [beq_eq_false_iff_ne]; rintro rfl; exact absurd h (by decide))

theorem safeChr_not_special (c : Char) (h : safeChr c = true) :
    (c == '{') = false ∧ (c == '}') = false ∧ (c == '`') = false ∧
    (c == ',') = false :=
  tame_not_special c (by simp [tameChr, h])

theorem all_mono (l : List Char) (p q : Char → Bool)
    (h : ∀ c, p c = true → q c = true) (hl : l.all p = true) :
    l.all q = true := by
  simp only [List.all_eq_true] at hl ⊢
  exact fun c hc => h c (hl c hc)

theorem scalarOk_wf (v : Json) (h : scalarOk v = true) : wfJson v = true := by
  cases v with
  | str s => rfl
  | num neg ip frac ex =>
    simp only [scalarOk, Bool.and_eq_true] at h
    obtain ⟨⟨⟨⟨hneg, hip⟩, hcan⟩, hfr⟩, hex⟩ := h
    have hfr' : frac = none := by
      simpa [Option.isNone_iff_eq_none] using hfr
    have hex' : ex = none := by
      simpa [Option.isNone_iff_eq_none] using hex
    subst hfr'
    subst hex'
    simp [wfJson, hip]
    simpa using hcan
  | null => exact absurd h (by decide)
  | jbool b => exact absurd h (by simp [scalarOk])
  | arr xs => exact absurd h (by simp [scalarOk])
  | obj kvs => exact absurd h (by simp [scalarOk])

theorem wfPairs_of_values (kvs : List (List Char × Json))
    (h : ∀ p ∈ kvs, wfJson p.2 = true) : wfPairs kvs = true := by
  induction kvs with
  | nil => rfl
  | cons p r ih =>
    obtain ⟨k, v⟩ := p
    simp only [wfPairs, Bool.and_eq_true]
    exact ⟨h (k, v) (List.mem_cons_self _ _),
      ih (fun q hq => h q (List.mem_cons_of_mem _ hq))⟩

theorem flatObjOk_wf (v : Json) (h : flatObjOk v = true) : wfJson v = true := by
  cases v with
  | obj kvs =>
    simp only [flatObjOk, Bool.and_eq_true, List.all_eq_true] at h
    simp only [wfJson, Bool.and_eq_true]
    refine ⟨wfPairs_of_values kvs ?_, h.2⟩
    intro p hp
    exact scalarOk_wf p.2 (by simpa using (h.1 p hp).2)
  | null => exact absurd h (by decide)
  | jbool b => exact absurd h (by simp [flatObjOk])
  | str s => exact absurd h (by simp [flatObjOk])
  | num a b c d => exact absurd h (by simp [flatObjOk])
  | arr xs => exact absurd h (by simp [flatObjOk])

theorem c6Ok_wf (J : Json) (h : c6Ok J = true) : wfJson J = true := by
  cases J with
  | obj kvs =>
    simp only [c6Ok, Bool.and_eq_true, List.all_eq_true] at h
    simp only [wfJson, Bool.and_eq_true]
    refine ⟨wfPairs_of_values kvs ?_, h.2⟩
    intro p hp
    have h2 := (h.1 p hp).2
    rw [Bool.or_eq_true] at h2
    rcases h2 with hs | hf
    · exact scalarOk_wf p.2 hs
    · exact flatObjOk_wf p.2 hf
  | null => exact absurd h (by decide)
  | jbool b => exact absurd h (by simp [c6Ok])
  | str s => exact absurd h (by simp [c6Ok])
  | num a b c d => exact absurd h (by simp [c6Ok])
  | arr xs => exact absurd h (by simp [c6Ok])

theorem printStr_tame (k : List Char) (hk : safeStr k = true) :
    (printStr k).all tameChr = true := by
  rw [printStr_safe k hk]
  simp only [List.all_cons, List.all_append, Bool.and_eq_true]
  refine ⟨by decide, ?_, by decide⟩
  exact all_mono k safeChr tameChr (fun c hc => by simp [tameChr, hc]) hk

theorem scalar_members_all (kvs : List (List Char × Json))
    (h : ∀ p ∈ kvs, safeStr p.1 = true ∧ scalarOk p.2 = true) :
    (printMembers kvs).all
      (fun c => tameChr c || c == ':' || c == ',') = true := by
  induction kvs with
  | nil => rfl
  | cons p rest ih =>
    obtain ⟨k, v⟩ := p
    have hk : safeStr k = true := (h (k, v) (List.mem_cons_self _ _)).1
    have hv : scalarOk v = true := (h (k, v) (List.mem_cons_self _ _)).2
    have hkt := all_mono _ tameChr (fun c => tameChr c || c == ':' || c == ',')
      (fun c hc => by rw [Bool.or_eq_true, Bool.or_eq_true]
                      exact Or.inl (Or.inl hc))
      (printStr_tame k hk)
    have hvt := all_mono _ tameChr (fun c => tameChr c || c == ':' || c == ',')
      (fun c hc => by rw [Bool.or_eq_true, Bool.or_eq_true]
                      exact Or.inl (Or.inl hc))
      (scalar_print_tame v hv)
    cases rest with
    | nil =>
      show ((printStr k ++ ':' :: ' ' :: printVal v).all _) = true
      simp only [List.all_append, List.all_cons, Bool.and_eq_true]
      simp [hkt, hvt]
      all_goals decide
    | cons m ms =>
      have ihr := ih (fun q hq => h q (List.mem_cons_of_mem _ hq))
      show ((printStr k ++ ':' :: ' ' :: printVal v ++ ',' :: ' ' ::
        printMembers (m :: ms)).all _) = true
      simp only [List.all_append, List.all_cons, Bool.and_eq_true]
      simp [hkt, hvt, ihr]
      all_goals decide

theorem c6_members_all (kvs : List (List Char × Json))
    (h : ∀ p ∈ kvs, safeStr p.1 = true ∧
      (scalarOk p.2 = true ∨ flatObjOk p.2 = true)) :
    (printMembers kvs).all
      (fun c => tameChr c || c == ':' || c == ',' || c == '{' || c == '}') = true := by
  have hlift : ∀ c, (tameChr c || c == ':' || c == ',') = true →
      (tameChr c || c == ':' || c == ',' || c == '{' || c == '}') = true := by
    intro c hc
    simp only [Bool.or_eq_true] at hc ⊢
    tauto
  induction kvs with
  | nil => rfl
  | cons p rest ih =>
    obtain ⟨k, v⟩ := p
    have hk : safeStr k = true := (h (k, v) (List.mem_cons_self _ _)).1
    have hv : scalarOk v = true ∨ flatObjOk v = true :=
      (h (k, v) (List.mem_cons_self _ _)).2
    have hkt := all_mono _ (fun c => tameChr c || c == ':' || c == ',') (fun c => tameChr c || c == ':' || c == ',' || c == '{' || c == '}') hlift
      (all_mono _ tameChr (fun c => tameChr c || c == ':' || c == ',')
        (fun c hc => by rw [Bool.or_eq_true, Bool.or_eq_true]
                        exact Or.inl (Or.inl hc))
        (printStr_tame k hk))
    have hvt : (printVal v).all
        (fun c => tameChr c || c == ':' || c == ',' || c == '{' || c == '}') = true := by
      rcases hv with hs | hf
      · exact all_mono _ (fun c => tameChr c || c == ':' || c == ',') (fun c => tameChr c || c == ':' || c == ',' || c == '{' || c == '}') hlift
          (all_mono _ tameChr (fun c => tameChr c || c == ':' || c == ',')
            (fun c hc => by rw [Bool.or_eq_true, Bool.or_eq_true]
                            exact Or.inl (Or.inl hc))
            (scalar_print_tame v hs))
      · cases v with
        | obj kvs2 =>
          simp only [flatObjOk, Bool.and_eq_true, List.all_eq_true] at hf
          have hin := scalar_members_all kvs2 (fun q hq => hf.1 q hq)
          show (('{' :: (printMembers kvs2 ++ ['}'])).all _) = true
          simp only [List.all_cons, List.all_append, Bool.and_eq_true]
          simp [all_mono _ (fun c => tameChr c || c == ':' || c == ',') (fun c => tameChr c || c == ':' || c == ',' || c == '{' || c == '}') hlift hin]
        | null => exact absurd hf (by decide)
        | jbool b => exact absurd hf (by simp [flatObjOk])
        | str s => exact absurd hf (by simp [flatObjOk])
        | num a b c d => exact absurd hf (by simp [flatObjOk])
        | arr xs => exact absurd hf (by simp [flatObjOk])
    cases rest with
    | nil =>
      show ((printStr k ++ ':' :: ' ' :: printVal v).all _) = true
      simp only [List.all_append, List.all_cons, Bool.and_eq_true]
      simp [hkt, hvt]
      all_goals decide
    | cons m ms =>
      have ihr := ih (fun q hq => h q (List.mem_cons_of_mem _ hq))
      show ((printStr k ++ ':' :: ' ' :: printVal v ++ ',' :: ' ' ::
        printMembers (m :: ms)).all _) = true
      simp only [List.all_append, List.all_cons, Bool.and_eq_true]
      simp [hkt, hvt, ihr]
      all_goals decide

theorem noBrace_append (a b : List Char) :
    noBrace (a ++ b) = (noBrace a && noBrace b) := by
  simp [noBrace, List.all_append]

theorem mChr_not_brace (c : Char)
    (h : (tameChr c || c == ':' || c == ',') = true) :
    (!(c == '{') && !(c == '}')) = true := by
  rw [Bool.or_eq_true, Bool.or_eq_true] at h
  rcases h with (ht | hc) | hc
  · obtain ⟨h1, h2, _, _⟩ := tame_not_special c ht
    simp [h1, h2]
  · rw [beq_iff_eq] at hc
    subst hc
    decide
  · rw [beq_iff_eq] at hc
    subst hc
    decide

theorem scalar_members_noBrace (kvs : List (List Char × Json))
    (h : ∀ p ∈ kvs, safeStr p.1 = true ∧ scalarOk p.2 = true) :
    noBrace (printMembers kvs) = true :=
  all_mono _ _ _ mChr_not_brace (scalar_members_all kvs h)

theorem member_noBrace (k : List Char) (v : Json)
    (hk : safeStr k = true) (hv : scalarOk v = true) :
    noBrace (printStr k ++ ':' :: ' ' :: printVal v) = true := by
  have h1 := all_mono _ tameChr _
    (fun c hc => mChr_not_brace c (by rw [Bool.or_eq_true, Bool.or_eq_true]
                                      exact Or.inl (Or.inl hc)))
    (printStr_tame k hk)
  have h2 := all_mono _ tameChr _
    (fun c hc => mChr_not_brace c (by rw [Bool.or_eq_true, Bool.or_eq_true]
                                      exact Or.inl (Or.inl hc)))
    (scalar_print_tame v hv)
  simp only [noBrace, List.all_append, List.all_cons, Bool.and_eq_true] at *
  simp [h1, h2]

theorem FlatChars_append (a b : List Char) (ha : FlatChars a)
    (hb : FlatChars b) : FlatChars (a ++ b) := by
  induction ha with
  | flat r hr =>
    cases hb with
    | flat r2 h2 =>
      exact .flat (r ++ b) (by rw [noBrace_append, hr, h2]; rfl)
    | nest r2 inner rest h2 hi hrest =>
      rw [show r ++ (r2 ++ '{' :: (inner ++ '}' :: rest)) =
        (r ++ r2) ++ '{' :: (inner ++ '}' :: rest) from
        (List.append_assoc r r2 _).symm]
      exact .nest (r ++ r2) inner rest
        (by rw [noBrace_append, hr, h2]; rfl) hi hrest
  | nest r inner rest hr hi hrest ih =>
    rw [show (r ++ '{' :: (inner ++ '}' :: rest)) ++ b =
      r ++ '{' :: (inner ++ '}' :: (rest ++ b)) by simp [List.append_assoc]]
    exact .nest r inner (rest ++ b) hr hi ih

theorem FlatChars_member (k : List Char) (v : Json) (S : List Char)
    (hk : safeStr k = true)
    (hv : scalarOk v = true ∨ flatObjOk v = true)
    (hS : FlatChars S) :
    FlatChars ((printStr k ++ ':' :: ' ' :: printVal v) ++ S) := by
  rcases hv with hs | hf
  · exact FlatChars_append _ S (.flat _ (member_noBrace k v hk hs)) hS
  · cases v with
    | obj kvs2 =>
      simp only [flatObjOk, Bool.and_eq_true, List.all_eq_true] at hf
      have hin := scalar_members_noBrace kvs2 (fun q hq => hf.1 q hq)
      rw [show (printStr k ++ ':' :: ' ' :: printVal (.obj kvs2)) ++ S =
        (printStr k ++ [':', ' ']) ++
          '{' :: (printMembers kvs2 ++ '}' :: S) by
        simp [printVal, List.append_assoc]]
      refine .nest _ _ S ?_ hin hS
      rw [noBrace_append]
      have h1 := all_mono _ tameChr _
        (fun c hc => mChr_not_brace c
          (by rw [Bool.or_eq_true, Bool.or_eq_true]
              exact Or.inl (Or.inl hc)))
        (printStr_tame k hk)
      simp only [noBrace] at h1 ⊢
      simp [h1]
    | null => exact absurd hf (by decide)
    | jbool b => exact absurd hf (by simp [flatObjOk])
    | str s => exact absurd hf (by simp [flatObjOk])
    | num a b c d => exact absurd hf (by simp [flatObjOk])
    | arr xs => exact absurd hf (by simp [flatObjOk])

theorem c6_members_flat (kvs : List (List Char × Json))
    (h : ∀ p ∈ kvs, safeStr p.1 = true ∧
      (scalarOk p.2 = true ∨ flatObjOk p.2 = true)) :
    FlatChars (printMembers kvs) := by
  induction kvs with
  | nil => exact .flat [] rfl
  | cons p rest ih =>
    obtain ⟨k, v⟩ := p
    have hk : safeStr k = true := (h (k, v) (List.mem_cons_self _ _)).1
    have hv : scalarOk v = true ∨ flatObjOk v = true :=
      (h (k, v) (List.mem_cons_self _ _)).2
    cases rest with
    | nil =>
      have := FlatChars_member k v [] hk hv (.flat [] rfl)
      rw [List.append_nil] at this
      exact this
    | cons m ms =>
      have ihr := ih (fun q hq => h q (List.mem_cons_of_mem _ hq))
      have hsep : FlatChars (',' :: ' ' :: printMembers (m :: ms)) := by
        have := FlatChars_append [',', ' '] _ (.flat _ (by decide)) ihr
        simpa using this
      have := FlatChars_member k v (',' :: ' ' :: printMembers (m :: ms))
        hk hv hsep
      rw [show (printStr k ++ ':' :: ' ' :: printVal v) ++
          ',' :: ' ' :: printMembers (m :: ms) =
        printMembers ((k, v) :: m :: ms) by
        simp [printMembers, List.append_assoc]] at this
      exact this

theorem fenceFollows_shielded (suf : List Char) (c : Char) (R : List Char)
    (hsuf : ∀ x ∈ suf, (x == '`') = false)
    (hcs : pyIsSpace c = false) (hcb : (c == '`') = false) :
    fenceFollows (suf ++ c :: R) = false := by
  induction suf with
  | nil =>
    unfold fenceFollows
    rw [List.nil_append, List.dropWhile_cons, hcs]
    simp only [Bool.false_eq_true, if_false]
    split
    · rename_i heq
      injection heq with hh _
      rw [hh] at hcb
      simp at hcb
    · rfl
  | cons a suf2 ih =>
    have ha := hsuf a (List.mem_cons_self _ _)
    have ih2 := ih (fun x hx => hsuf x (List.mem_cons_of_mem _ hx))
    unfold fenceFollows at ih2 ⊢
    rw [List.cons_append, List.dropWhile_cons]
    cases hsp : pyIsSpace a with
    | true =>
      simp only [if_true]
      exact ih2
    | false =>
      simp only [Bool.false_eq_true, if_false]
      split
      · rename_i heq
        injection heq with hh _
        rw [hh] at ha
        simp at ha
      · rfl

theorem lazyClose_shielded (M R : List Char)
    (hM : ∀ c ∈ M, (c == '`') = false)
    (hR : fenceFollows R = true) :
    lazyClose (M ++ '}' :: R) = some (M ++ ['}']) := by
  induction M with
  | nil =>
    show lazyClose ('}' :: R) = some ['}']
    unfold lazyClose
    rw [show ('}' == '}' && fenceFollows R) = true by rw [hR]; rfl]
    rfl
  | cons a M2 ih =>
    have ha := hM a (List.mem_cons_self _ _)
    have ih2 := ih (fun c hc => hM c (List.mem_cons_of_mem _ hc))
    show lazyClose (a :: (M2 ++ '}' :: R)) = some (a :: (M2 ++ ['}']))
    unfold lazyClose
    have hcond : (a == '}' && fenceFollows (M2 ++ '}' :: R)) = false := by
      by_cases haz : a = '}'
      · have hff : fenceFollows (M2 ++ '}' :: R) = false :=
          fenceFollows_shielded M2 '}' R
            (fun c hc => hM c (List.mem_cons_of_mem _ hc))
            (by decide) (by decide)
        rw [hff]
        simp
      · rw [show (a == '}') = false from beq_eq_false_iff_ne.2 haz]
        rfl
    rw [hcond]
    simp only [Bool.false_eq_true, if_false]
    rw [ih2]
    rfl

theorem extract_fence (B : List Char)
    (hB : ∀ c ∈ B, (c == '`') = false) :
    extractCodeBlock (fenceWrap ('{' :: (B ++ ['}']))) =
      some ('{' :: (B ++ ['}'])) := by
  have hlz : lazyClose (B ++ '}' :: ('\n' :: "```".data)) =
      some (B ++ ['}']) :=
    lazyClose_shielded B ('\n' :: "```".data) hB (by decide)
  have htf : tryFence (fenceWrap ('{' :: (B ++ ['}']))) =
      some ('{' :: (B ++ ['}'])) := by
    show (match
        List.dropWhile pyIsSpace
          ('\n' :: ('{' :: (B ++ ['}']) ++ '\n' :: "```".data)) with
      | '{' :: u => (lazyClose u).map ('{' :: ·)
      | _ => none) = some ('{' :: (B ++ ['}']))
    rw [show List.dropWhile pyIsSpace
        ('\n' :: ('{' :: (B ++ ['}']) ++ '\n' :: "```".data)) =
        '{' :: ((B ++ ['}']) ++ '\n' :: "```".data) from rfl]
    show (lazyClose ((B ++ ['}']) ++ '\n' :: "```".data)).map ('{' :: ·) = _
    rw [show (B ++ ['}']) ++ '\n' :: "```".data =
      B ++ '}' :: ('\n' :: "```".data) by simp]
    rw [hlz]
    rfl
  show (match tryFence (fenceWrap ('{' :: (B ++ ['}']))) with
    | some g => some g
    | none => extractCodeBlock
        ('`' :: '`' :: 'j' :: 's' :: 'o' :: 'n' :: '\n' ::
          ('{' :: (B ++ ['}']) ++ '\n' :: "```".data))) = _
  rw [htf]

theorem pPairs_not_quote (f : Nat) (c : Char) (t : List Char)
    (acc : List (List Char × Json))
    (hws : jsonWsChar c = false) (hq : (c == '"') = false) :
    pPairs f (c :: t) acc = none := by
  cases f with
  | zero => rfl
  | succ f =>
    rw [pPairs_succ, skipWs_cons_not c t hws]
    split
    · rename_i heq
      injection heq with h1 _
      rw [h1] at hq
      simp at hq
    · rfl

theorem pPairs_trailing : ∀ f (k : List Char) (v : Json)
    (kvs : List (List Char × Json)) (acc : List (List Char × Json))
    (R : List Char),
    wfJson v = true → wfPairs kvs = true →
    1 + Jfuel v + JfuelM kvs ≤ f →
    pPairs f (printMembers ((k, v) :: kvs) ++ ',' :: '}' :: R) acc = none := by
  intro f
  induction f with
  | zero =>
    intro k v kvs acc R _ _ hfu
    have := Jfuel_pos v
    omega
  | succ f ih =>
    intro k v kvs acc R hwv hwp hfu
    cases kvs with
    | nil =>
      have hv := (print_parse_aux f).1 v (',' :: '}' :: R) hwv
        (by simp only [JfuelM] at hfu; omega) rfl
      have hs : printMembers [(k, v)] ++ ',' :: '}' :: R =
          '"' :: k.foldr (fun c a => escChar c ++ a)
            ('"' :: ':' :: ' ' :: (printVal v ++ ',' :: '}' :: R)) := by
        show (printStr k ++ ':' :: ' ' :: printVal v) ++ ',' :: '}' :: R = _
        simp [printStr, List.append_assoc, foldr_esc_append]
      rw [hs, pPairs_quote, parseStrBody_print]
      show (match pV f (' ' :: (printVal v ++ ',' :: '}' :: R)) with
        | none => none
        | some (v2, r3) =>
          match skipWs r3 with
          | ',' :: r4 => pPairs f r4 (upsertKV acc k v2)
          | '}' :: r4 => some (Json.obj (upsertKV acc k v2), r4)
          | _ => none) = none
      rw [pV_space, hv]
      show pPairs f ('}' :: R) (upsertKV acc k v) = none
      exact pPairs_not_quote f '}' R _ (by decide) (by decide)
    | cons m ms =>
      obtain ⟨k2, v2⟩ := m
      simp only [wfPairs, Bool.and_eq_true] at hwp
      have hv := (print_parse_aux f).1 v
        (',' :: ' ' :: (printMembers ((k2, v2) :: ms) ++ ',' :: '}' :: R))
        hwv (by simp only [JfuelM] at hfu; omega) rfl
      have hs : printMembers ((k, v) :: (k2, v2) :: ms) ++ ',' :: '}' :: R =
          '"' :: k.foldr (fun c a => escChar c ++ a)
            ('"' :: ':' :: ' ' :: (printVal v ++ ',' :: ' ' ::
              (printMembers ((k2, v2) :: ms) ++ ',' :: '}' :: R))) := by
        show (printStr k ++ ':' :: ' ' :: printVal v ++ ',' :: ' ' ::
          printMembers ((k2, v2) :: ms)) ++ ',' :: '}' :: R = _
        simp [printStr, List.append_assoc, foldr_esc_append]
      rw [hs, pPairs_quote, parseStrBody_print]
      show (match pV f (' ' :: (printVal v ++ ',' :: ' ' ::
          (printMembers ((k2, v2) :: ms) ++ ',' :: '}' :: R))) with
        | none => none
        | some (v3, r3) =>
          match skipWs r3 with
          | ',' :: r4 => pPairs f r4 (upsertKV acc k v3)
          | '}' :: r4 => some (Json.obj (upsertKV acc k v3), r4)
          | _ => none) = none
      rw [pV_space, hv]
      show pPairs f
        (' ' :: (printMembers ((k2, v2) :: ms) ++ ',' :: '}' :: R))
        (upsertKV acc k v) = none
      rw [pPairs_space]
      exact ih k2 v2 ms _ R hwp.1 hwp.2
        (by simp only [JfuelM] at hfu; omega)

theorem insertComma_obj (kvs : List (List Char × Json)) :
    insertComma (printVal (.obj kvs)) =
      '{' :: (printMembers kvs ++ [',', '}']) := by
  unfold insertComma
  rw [show printVal (.obj kvs) = ('{' :: printMembers kvs) ++ ['}'] by
    simp [printVal]]
  rw [List.dropLast_concat]
  simp

theorem jsonLoads_insertComma (kvs : List (List Char × Json))
    (hwf : wfJson (.obj kvs) = true) :
    jsonLoads (insertComma (printVal (.obj kvs))) = none := by
  rw [insertComma_obj]
  cases kvs with
  | nil => rfl
  | cons p kvs2 =>
    obtain ⟨k, v⟩ := p
    simp only [wfJson, wfPairs, Bool.and_eq_true] at hwf
    obtain ⟨⟨hwv, hwp⟩, _⟩ := hwf
    have hkey : ∀ F, 1 + Jfuel v + JfuelM kvs2 ≤ F →
        pV (F + 1)
          ('{' :: (printMembers ((k, v) :: kvs2) ++ [',', '}'])) = none := by
      intro F hFb
      obtain ⟨T, hT⟩ :
          ∃ T, printMembers ((k, v) :: kvs2) ++ [',', '}'] = '"' :: T := by
        cases kvs2 with
        | nil => exact ⟨_, rfl⟩
        | cons m ms => exact ⟨_, rfl⟩
      rw [hT, pV_obj_go, ← hT]
      exact pPairs_trailing F k v kvs2 [] [] hwv hwp hFb
    have hfuel : 1 + Jfuel v + JfuelM kvs2 ≤
        2 * (('{' ::
          (printMembers ((k, v) :: kvs2) ++ [',', '}'])).length) + 1 := by
      have hb := (Jfuel_bound (JfuelM ((k, v) :: kvs2))).2.2
        ((k, v) :: kvs2) le_rfl
        (by simp only [wfPairs, Bool.and_eq_true]; exact ⟨hwv, hwp⟩)
      simp only [JfuelM] at hb ⊢
      simp only [List.length_cons, List.length_append]
      omega
    unfold jsonLoads
    rw [show 2 * (('{' ::
        (printMembers ((k, v) :: kvs2) ++ [',', '}'])).length) + 2 =
      (2 * (('{' ::
        (printMembers ((k, v) :: kvs2) ++ [',', '}'])).length) + 1) + 1
      from rfl]
    rw [hkey _ hfuel]

theorem bmGo_walk (r X : List Char) (h : noBrace r = true) :
    bmGo (r ++ X) = (bmGo X).map (r ++ ·) := by
  induction r with
  | nil => cases h2 : bmGo X <;> simp [h2]
  | cons c r2 ih =>
    simp only [noBrace, List.all_cons, Bool.and_eq_true] at h
    obtain ⟨⟨h1, h2⟩, hr⟩ := h
    show (if c == '}' then some [c]
      else if c == '{' then (bmInner (r2 ++ X)).map (c :: ·)
      else (bmGo (r2 ++ X)).map (c :: ·)) = _
    rw [show (c == '}') = false from by simpa using h2,
      show (c == '{') = false from by simpa using h1]
    simp only [Bool.false_eq_true, if_false]
    rw [ih (by simp [noBrace, hr])]
    cases h3 : bmGo X <;> simp [h3]

theorem bmInner_walk (r X : List Char) (h : noBrace r = true) :
    bmInner (r ++ X) = (bmInner X).map (r ++ ·) := by
  induction r with
  | nil => cases h2 : bmInner X <;> simp [h2]
  | cons c r2 ih =>
    simp only [noBrace, List.all_cons, Bool.and_eq_true] at h
    obtain ⟨⟨h1, h2⟩, hr⟩ := h
    show (if c == '}' then (bmGo (r2 ++ X)).map (c :: ·)
      else if c == '{' then none
      else (bmInner (r2 ++ X)).map (c :: ·)) = _
    rw [show (c == '}') = false from by simpa using h2,
      show (c == '{') = false from by simpa using h1]
    simp only [Bool.false_eq_true, if_false]
    rw [ih (by simp [noBrace, hr])]
    cases h3 : bmInner X <;> simp [h3]

theorem bmGo_flat (M R : List Char) (hM : FlatChars M) :
    bmGo (M ++ '}' :: R) = some (M ++ ['}']) := by
  induction hM with
  | flat r hr =>
    rw [bmGo_walk r ('}' :: R) hr]
    rfl
  | nest r inner rest hr hi hrest ih =>
    rw [show (r ++ '{' :: (inner ++ '}' :: rest)) ++ '}' :: R =
      r ++ ('{' :: (inner ++ '}' :: (rest ++ '}' :: R))) by simp]
    rw [bmGo_walk r _ hr]
    rw [show bmGo ('{' :: (inner ++ '}' :: (rest ++ '}' :: R))) =
      (bmInner (inner ++ '}' :: (rest ++ '}' :: R))).map ('{' :: ·) from rfl]
    rw [bmInner_walk inner _ hi]
    rw [show bmInner ('}' :: (rest ++ '}' :: R)) =
      (bmGo (rest ++ '}' :: R)).map ('}' :: ·) from rfl]
    rw [ih]
    simp [List.append_assoc]

theorem braceMatch_found (u g : List Char) (h : bmGo u = some g) :
    braceMatch ('{' :: u) = some ('{' :: g) := by
  unfold braceMatch
  rw [show ('{' == '{') = true from rfl]
  simp only [if_true]
  rw [h]

theorem dropWhile_append_total (p : Char → Bool) (a b : List Char) :
    (a ++ b).dropWhile p =
      if (a.dropWhile p).isEmpty then b.dropWhile p
      else a.dropWhile p ++ b := by
  induction a with
  | nil => simp
  | cons x a2 ih =>
    simp only [List.cons_append, List.dropWhile_cons]
    cases hx : p x with
    | true => simp [ih]
    | false => simp

theorem dropWhile_append_of_all (p : Char → Bool) (pre X : List Char)
    (h : ∀ c ∈ pre, p c = true) :
    (pre ++ X).dropWhile p = X.dropWhile p := by
  rw [dropWhile_append_total, dropWhileAllTrue p pre h]
  rfl

theorem pyRStrip_head (p : Char → Bool) (c : Char) (l : List Char)
    (h : p c = false) : ∃ t, pyRStripWith p (c :: l) = c :: t := by
  unfold pyRStripWith
  rw [List.reverse_cons, dropWhile_append_total]
  split
  · refine ⟨[], ?_⟩
    rw [show List.dropWhile p [c] = [c] by simp [List.dropWhile_cons, h]]
    rfl
  · refine ⟨(l.reverse.dropWhile p).reverse, ?_⟩
    rw [List.reverse_append]
    rfl

theorem pV_backtick (f : Nat) (t : List Char) : pV f ('`' :: t) = none := by
  cases f with
  | zero => rfl
  | succ f =>
    rw [pV_default f '`' t (by decide)]
    rfl

theorem jsonLoads_backtick (t : List Char) : jsonLoads ('`' :: t) = none := by
  unfold jsonLoads
  rw [pV_backtick]

theorem greedyBrace_fence (B : List Char) :
    greedyBrace (fenceWrap ('{' :: (B ++ ['}']))) =
      some ('{' :: (B ++ ['}'])) := by
  have h1 : (fenceWrap ('{' :: (B ++ ['}']))).dropWhile
      (fun c => !(c == '{')) =
      '{' :: ((B ++ ['}']) ++ '\n' :: "```".data) := rfl
  unfold greedyBrace
  rw [h1]
  have h2 : ('{' :: ((B ++ ['}']) ++ '\n' :: "```".data)).reverse =
      ('`' :: '`' :: '`' :: '\n' :: []) ++ ('}' :: (B.reverse ++ ['{'])) := by
    simp [List.reverse_cons, List.reverse_append]
  show (let r := (('{' :: ((B ++ ['}']) ++ '\n' :: "```".data)).reverse.dropWhile
      (fun c => !(c == '}')));
    if r.isEmpty then none else some r.reverse) = _
  rw [h2, dropWhile_append_of_all _ _ _ (by decide),
    show List.dropWhile (fun c => !(c == '}')) ('}' :: (B.reverse ++ ['{'])) =
      '}' :: (B.reverse ++ ['{']) by simp [List.dropWhile_cons]]
  show some (('}' :: (B.reverse ++ ['{'])).reverse) = _
  simp [List.reverse_cons, List.reverse_append]

theorem braceMatch_fence (B : List Char) (hB : FlatChars B) :
    braceMatch (fenceWrap ('{' :: (B ++ ['}']))) =
      some ('{' :: (B ++ ['}'])) := by
  have hgo : bmGo ((B ++ ['}']) ++ '\n' :: "```".data) = some (B ++ ['}']) := by
    rw [show (B ++ ['}']) ++ '\n' :: "```".data =
      B ++ '}' :: ('\n' :: "```".data) by simp]
    exact bmGo_flat B _ hB
  show (match bmGo ((B ++ ['}']) ++ '\n' :: "```".data) with
    | some g => some ('{' :: g)
    | none => braceMatch ((B ++ ['}']) ++ '\n' :: "```".data)) = _
  rw [hgo]

theorem fjiGo_safe (X T : List Char) (hX : FjiSafe X) :
    fjiGo [] (X ++ T) = X ++ fjiGo [] T := by
  induction hX with
  | nil => rfl
  | plain c rest hc h ih =>
    show (if c == ',' then fjiGo [c] (rest ++ T)
      else c :: fjiGo [] (rest ++ T)) = c :: (rest ++ fjiGo [] T)
    rw [hc]
    simp only [Bool.false_eq_true, if_false]
    rw [ih]
  | sep d rest hd hsp hcm h ih =>
    show (if closerChar d then d :: fjiGo [] (rest ++ T)
      else if pyIsSpace d then fjiGo ([',', ' '] ++ [d]) (rest ++ T)
      else if d == ',' then [',', ' '] ++ fjiGo [d] (rest ++ T)
      else [',', ' '] ++ d :: fjiGo [] (rest ++ T)) =
      (',' :: ' ' :: d :: rest) ++ fjiGo [] T
    rw [hd, hsp, hcm]
    simp only [Bool.false_eq_true, if_false]
    have ih2 : fjiGo [] (rest ++ T) = rest ++ fjiGo [] T := by
      have h1 : fjiGo [] (d :: (rest ++ T)) = d :: fjiGo [] (rest ++ T) := by
        show (if d == ',' then fjiGo [d] (rest ++ T)
          else d :: fjiGo [] (rest ++ T)) = _
        rw [hcm]
        simp
      have h2 := ih
      rw [show (d :: rest) ++ T = d :: (rest ++ T) from rfl, h1] at h2
      injection h2
    rw [ih2]
    simp

theorem FjiSafe_plain_append (a b : List Char)
    (h : ∀ c ∈ a, (c == ',') = false) (hb : FjiSafe b) : FjiSafe (a ++ b) := by
  induction a with
  | nil => exact hb
  | cons c r ih =>
    exact .plain c _ (h c (List.mem_cons_self _ _))
      (ih (fun x hx => h x (List.mem_cons_of_mem _ hx)))

theorem tame_no_comma (l : List Char) (h : l.all tameChr = true) :
    ∀ c ∈ l, (c == ',') = false := by
  intro c hc
  rw [List.all_eq_true] at h
  exact (tame_not_special c (h c hc)).2.2.2

theorem scalar_members_fjisafe (kvs : List (List Char × Json))
    (h : ∀ p ∈ kvs, safeStr p.1 = true ∧ scalarOk p.2 = true)
    (R : List Char) (hR : FjiSafe R) :
    FjiSafe (printMembers kvs ++ R) := by
  induction kvs with
  | nil => exact hR
  | cons p rest ih =>
    obtain ⟨k, v⟩ := p
    have hk : safeStr k = true := (h (k, v) (List.mem_cons_self _ _)).1
    have hv : scalarOk v = true := (h (k, v) (List.mem_cons_self _ _)).2
    have hknc := tame_no_comma _ (printStr_tame k hk)
    have hvnc := tame_no_comma _ (scalar_print_tame v hv)
    cases rest with
    | nil =>
      show FjiSafe ((printStr k ++ ':' :: ' ' :: printVal v) ++ R)
      rw [show (printStr k ++ ':' :: ' ' :: printVal v) ++ R =
        printStr k ++ ':' :: ' ' :: (printVal v ++ R) by simp]
      refine FjiSafe_plain_append _ _ hknc ?_
      refine .plain ':' _ (by decide) (.plain ' ' _ (by decide) ?_)
      exact FjiSafe_plain_append _ _ hvnc hR
    | cons m ms =>
      have ihr := ih (fun q hq => h q (List.mem_cons_of_mem _ hq))
      obtain ⟨T, hT⟩ : ∃ T, printMembers (m :: ms) ++ R = '"' :: T := by
        obtain ⟨k2, v2⟩ := m
        cases ms with
        | nil => exact ⟨_, rfl⟩
        | cons m2 ms2 => exact ⟨_, rfl⟩
      show FjiSafe ((printStr k ++ ':' :: ' ' :: printVal v ++ ',' :: ' ' ::
        printMembers (m :: ms)) ++ R)
      rw [show (printStr k ++ ':' :: ' ' :: printVal v ++ ',' :: ' ' ::
          printMembers (m :: ms)) ++ R =
        printStr k ++ ':' :: ' ' :: (printVal v ++
          (',' :: ' ' :: (printMembers (m :: ms) ++ R))) by simp]
      refine FjiSafe_plain_append _ _ hknc ?_
      refine .plain ':' _ (by decide) (.plain ' ' _ (by decide) ?_)
      refine FjiSafe_plain_append _ _ hvnc ?_
      rw [hT]
      refine .sep '"' T (by decide) (by decide) (by decide) ?_
      rw [← hT]
      exact ihr

theorem c6_members_fjisafe (kvs : List (List Char × Json))
    (h : ∀ p ∈ kvs, safeStr p.1 = true ∧
      (scalarOk p.2 = true ∨ flatObjOk p.2 = true))
    (R : List Char) (hR : FjiSafe R) :
    FjiSafe (printMembers kvs ++ R) := by
  induction kvs with
  | nil => exact hR
  | cons p rest ih =>
    obtain ⟨k, v⟩ := p
    have hk : safeStr k = true := (h (k, v) (List.mem_cons_self _ _)).1
    have hv : scalarOk v = true ∨ flatObjOk v = true :=
      (h (k, v) (List.mem_cons_self _ _)).2
    have hknc := tame_no_comma _ (printStr_tame k hk)
    have hval : ∀ R2, FjiSafe R2 → FjiSafe (printVal v ++ R2) := by
      intro R2 hR2
      rcases hv with hs | hf
      · exact FjiSafe_plain_append _ _
          (tame_no_comma _ (scalar_print_tame v hs)) hR2
      · cases v with
        | obj kvs2 =>
          simp only [flatObjOk, Bool.and_eq_true, List.all_eq_true] at hf
          rw [show printVal (.obj kvs2) ++ R2 =
            '{' :: (printMembers kvs2 ++ ('}' :: R2)) by
            simp [printVal, List.append_assoc]]
          refine .plain '{' _ (by decide) ?_
          exact scalar_members_fjisafe kvs2 (fun q hq => hf.1 q hq)
            ('}' :: R2) (.plain '}' _ (by decide) hR2)
        | null => exact absurd hf (by decide)
        | jbool b => exact absurd hf (by simp [flatObjOk])
        | str s => exact absurd hf (by simp [flatObjOk])
        | num a b c d => exact absurd hf (by simp [flatObjOk])
        | arr xs => exact absurd hf (by simp [flatObjOk])
    cases rest with
    | nil =>
      show FjiSafe ((printStr k ++ ':' :: ' ' :: printVal v) ++ R)
      rw [show (printStr k ++ ':' :: ' ' :: printVal v) ++ R =
        printStr k ++ ':' :: ' ' :: (printVal v ++ R) by simp]
      refine FjiSafe_plain_append _ _ hknc ?_
      exact .plain ':' _ (by decide) (.plain ' ' _ (by decide) (hval R hR))
    | cons m ms =>
      have ihr := ih (fun q hq => h q (List.mem_cons_of_mem _ hq))
      obtain ⟨T, hT⟩ : ∃ T, printMembers (m :: ms) ++ R = '"' :: T := by
        obtain ⟨k2, v2⟩ := m
        cases ms with
        | nil => exact ⟨_, rfl⟩
        | cons m2 ms2 => exact ⟨_, rfl⟩
      show FjiSafe ((printStr k ++ ':' :: ' ' :: printVal v ++ ',' :: ' ' ::
        printMembers (m :: ms)) ++ R)
      rw [show (printStr k ++ ':' :: ' ' :: printVal v ++ ',' :: ' ' ::
          printMembers (m :: ms)) ++ R =
        printStr k ++ ':' :: ' ' :: (printVal v ++
          (',' :: ' ' :: (printMembers (m :: ms) ++ R))) by simp]
      refine FjiSafe_plain_append _ _ hknc ?_
      refine .plain ':' _ (by decide) (.plain ' ' _ (by decide) ?_)
      refine hval _ ?_
      rw [hT]
      refine .sep '"' T (by decide) (by decide) (by decide) ?_
      rw [← hT]
      exact ihr

theorem fixJsonIssues_insertComma (kvs : List (List Char × Json))
    (h : ∀ p ∈ kvs, safeStr p.1 = true ∧
      (scalarOk p.2 = true ∨ flatObjOk p.2 = true)) :
    fixJsonIssues (insertComma (printVal (.obj kvs))) =
      printVal (.obj kvs) := by
  rw [insertComma_obj]
  have hm : FjiSafe ('{' :: printMembers kvs) := by
    refine .plain '{' _ (by decide) ?_
    have := c6_members_fjisafe kvs h [] .nil
    rwa [List.append_nil] at this
  have hgo := fjiGo_safe ('{' :: printMembers kvs) [',', '}'] hm
  unfold fixJsonIssues
  rw [show '{' :: (printMembers kvs ++ [',', '}']) =
    ('{' :: printMembers kvs) ++ [',', '}'] from rfl, hgo]
  rw [show fjiGo [] [',', '}'] = ['}'] from rfl]
  simp [printVal]

theorem c6Chr_not_tick (c : Char)
    (h : (tameChr c || c == ':' || c == ',' || c == '{' || c == '}') = true) :
    (c == '`') = false := by
  simp only [Bool.or_eq_true] at h
  rcases h with ((((ht | h) | h) | h) | h)
  · exact (tame_not_special c ht).2.2.1
  all_goals (rw [beq_iff_eq] at h; subst h; decide)

theorem parseJsonResponse_fence (kvs : List (List Char × Json))
    (h : ∀ p ∈ kvs, safeStr p.1 = true ∧
      (scalarOk p.2 = true ∨ flatObjOk p.2 = true))
    (hwf : wfJson (.obj kvs) = true) :
    parseJsonResponse (fenceWrap (printVal (.obj kvs))) = .obj kvs := by
  have hBt : ∀ c ∈ printMembers kvs, (c == '`') = false := by
    have hall := c6_members_all kvs h
    rw [List.all_eq_true] at hall
    exact fun c hc => c6Chr_not_tick c (hall c hc)
  have hshape : printVal (.obj kvs) = '{' :: (printMembers kvs ++ ['}']) := rfl
  have ha : jsonLoads (fenceWrap (printVal (.obj kvs))) = none := by
    obtain ⟨T, hT⟩ : ∃ T, fenceWrap (printVal (.obj kvs)) = '`' :: T :=
      ⟨_, rfl⟩
    rw [hT]
    exact jsonLoads_backtick T
  have hb : extractCodeBlock (fenceWrap (printVal (.obj kvs))) =
      some (printVal (.obj kvs)) := by
    rw [hshape]
    exact extract_fence (printMembers kvs) hBt
  have hJ : jsonLoads (printVal (.obj kvs)) = some (.obj kvs) :=
    jsonLoads_print _ hwf
  unfold parseJsonResponse
  rw [ha]
  simp [hb, hJ]

theorem parseJsonResponse_fence_comma (kvs : List (List Char × Json))
    (h : ∀ p ∈ kvs, safeStr p.1 = true ∧
      (scalarOk p.2 = true ∨ flatObjOk p.2 = true))
    (hwf : wfJson (.obj kvs) = true) :
    parseJsonResponse (fenceWrap (insertComma (printVal (.obj kvs)))) =
      .obj kvs := by
  have hI : insertComma (printVal (.obj kvs)) =
      '{' :: ((printMembers kvs ++ [',']) ++ ['}']) := by
    rw [insertComma_obj]
    simp
  have hBt2 : ∀ c ∈ printMembers kvs ++ [','], (c == '`') = false := by
    intro c hc
    rcases List.mem_append.1 hc with h1 | h2
    · have hall := c6_members_all kvs h
      rw [List.all_eq_true] at hall
      exact c6Chr_not_tick c (hall c h1)
    · have : c = ',' := by simpa using h2
      subst this
      decide
  have ha : jsonLoads (fenceWrap (insertComma (printVal (.obj kvs)))) =
      none := by
    obtain ⟨T, hT⟩ :
        ∃ T, fenceWrap (insertComma (printVal (.obj kvs))) = '`' :: T :=
      ⟨_, rfl⟩
    rw [hT]
    exact jsonLoads_backtick T
  have hload : jsonLoads (insertComma (printVal (.obj kvs))) = none :=
    jsonLoads_insertComma kvs hwf
  have hb : extractCodeBlock (fenceWrap (insertComma (printVal (.obj kvs)))) =
      some (insertComma (printVal (.obj kvs))) := by
    have := extract_fence (printMembers kvs ++ [',']) hBt2
    rw [← hI] at this
    exact this
  have hc : braceMatch (fenceWrap (insertComma (printVal (.obj kvs)))) =
      some (insertComma (printVal (.obj kvs))) := by
    have hflat : FlatChars (printMembers kvs ++ [',']) :=
      FlatChars_append _ _ (c6_members_flat kvs h) (.flat [','] (by decide))
    have := braceMatch_fence (printMembers kvs ++ [',']) hflat
    rw [← hI] at this
    exact this
  have hd : jsonLoads
      (pyStrip (removeCtl (fenceWrap (insertComma (printVal (.obj kvs)))))) =
      none := by
    obtain ⟨T1, hT1⟩ :
        ∃ T1, removeCtl (fenceWrap (insertComma (printVal (.obj kvs)))) =
          '`' :: T1 := ⟨_, rfl⟩
    rw [hT1]
    unfold pyStrip
    rw [show List.dropWhile pyIsSpace ('`' :: T1) = '`' :: T1 by
      rw [List.dropWhile_cons, show pyIsSpace '`' = false from rfl]
      simp]
    obtain ⟨t2, ht2⟩ := pyRStrip_head pyIsSpace '`' T1 (by decide)
    rw [ht2]
    exact jsonLoads_backtick t2
  have he : greedyBrace (fenceWrap (insertComma (printVal (.obj kvs)))) =
      some (insertComma (printVal (.obj kvs))) := by
    have := greedyBrace_fence (printMembers kvs ++ [','])
    rw [← hI] at this
    exact this
  have hfix := fixJsonIssues_insertComma kvs h
  have hJ : jsonLoads (printVal (.obj kvs)) = some (.obj kvs) :=
    jsonLoads_print _ hwf
  unfold parseJsonResponse
  rw [ha]
  simp [hb, hload, hc, hd, he, hfix, hJ]

/-- C6 (amended): for objects in the restricted class (inert keys, scalar
or one-level-object values), the recovery cascade yields the same
structured content for the fenced response with an inserted trailing comma
as for the fenced response without it. -/
theorem C6_amended (J : Json) (h : c6Ok J = true) :
    parseJsonResponse (fenceWrap (insertComma (printVal J))) =
      parseJsonResponse (fenceWrap (printVal J)) := by
  cases J with
  | obj kvs =>
    have hm : ∀ p ∈ kvs, safeStr p.1 = true ∧
        (scalarOk p.2 = true ∨ flatObjOk p.2 = true) := by
      simp only [c6Ok, Bool.and_eq_true, List.all_eq_true] at h
      intro p hp
      have h2 := h.1 p hp
      refine ⟨h2.1, ?_⟩
      rw [← Bool.or_eq_true]
      exact h2.2
    have hwf := c6Ok_wf _ h
    rw [parseJsonResponse_fence_comma kvs hm hwf,
      parseJsonResponse_fence kvs hm hwf]
  | null => exact absurd h (by decide)
  | jbool b => exact absurd h (by simp [c6Ok])
  | str s => exact absurd h (by simp [c6Ok])
  | num a b c d => exact absurd h (by simp [c6Ok])
  | arr xs => exact absurd h (by simp [c6Ok])

/-- Closed instance of the amended C6 theorem at a two-member object with a
nested one-level value. -/
theorem C6_amended_witness :
    c6Ok (Json.obj [("a".data, Json.int 1),
      ("b".data, .obj [("c".data, .str "ok".data)])]) = true ∧
    parseJsonResponse (fenceWrap (insertComma (printVal
      (Json.obj [("a".data, Json.int 1),
        ("b".data, .obj [("c".data, .str "ok".data)])])))) =
      parseJsonResponse (fenceWrap (printVal
        (Json.obj [("a".data, Json.int 1),
          ("b".data, .obj [("c".data, .str "ok".data)])]))) :=
  ⟨by decide, C6_amended _ (by decide)⟩

/-- C6: the unrestricted claim fails — with two levels of nesting below the
top object, the one-level brace regex of the cascade captures a strict
sub-object of the comma-damaged response, while the undamaged response is
recovered in full from the fenced block, so the two results differ. -/
theorem C6_counterexample :
    parseJsonResponse (fenceWrap (insertComma (printVal
      (Json.obj [("a".data, .obj [("b".data,
        .obj [("c".data, Json.int 1)])])])))) ≠
    parseJsonResponse (fenceWrap (printVal
      (Json.obj [("a".data, .obj [("b".data,
        .obj [("c".data, Json.int 1)])])]))) := by
  intro hcontra
  have h1 : (jsonField (parseJsonResponse (fenceWrap (insertComma (printVal
      (Json.obj [("a".data, .obj [("b".data,
        .obj [("c".data, Json.int 1)])])]))))) ("a".data)).isSome =
      false := by rfl
  have h2 : (jsonField (parseJsonResponse (fenceWrap (printVal
      (Json.obj [("a".data, .obj [("b".data,
        .obj [("c".data, Json.int 1)])])])))) ("a".data)).isSome =
      true := by rfl
  rw [hcontra, h2] at h1
  simp at h1

theorem sha256_reference :
    sha256Hex (utf8 "abc".data) =
      "ba7816bf8f01cfea414140de5dae2223b00361a396177a9cb410ff61f20015ad".data ∧
    hashUrl "a /".data = "6583dcd6056fd32a".data ∧
    hashUrl "a ".data = "ca978112ca1bbdca".data := by
  refine ⟨by decide, by decide, by decide⟩

theorem jsonLoads_samples :
    jsonLoads (printVal (.obj [("a".data, .arr [.null, Json.int 12])])) =
      some (.obj [("a".data, .arr [.null, Json.int 12])]) ∧
    jsonLoads "hello".data = none := ⟨by rfl, by rfl⟩

theorem parseJsonResponse_fallback_sample :
    parseJsonResponse "hello world".data =
      fallbackResponse "hello world".data := by rfl
end RDIP
